import Mathlib

/-! Voice activity detection: the packet window, the classifier and the transform.

A shallow embedding of `src/VAD.cpp` (namespace `VAD`).

* `std::vector` is `List`; a `signed char` sample is an `Int`.
* The statements on the transform are over exact arithmetic: there `double` and
  `complex<double>` are `ℝ` and `ℂ` and the constant `PI` is `Real.pi`.  The
  transform is written over any type with a zero, a sum, a difference and a
  product, with the twiddle factor as a parameter; `fourier` is its instance
  at `ℂ` and `fourier_double` its instance at `complex<double>`.
* The statements on `max_magnitude` and on the flag of `voice_detection` are
  over doubles: the values of `Dbl` (not-a-number and the infinities
  included), the comparisons of doubles, and an arithmetic `Fpu` for the
  rounded operations.
* A function that may recurse forever returns `Option`, `none` standing for a
  call that never returns; recursion depth is bounded by explicit fuel.
* The input stream is the list of bytes still unread together with the
  `good()` bit; the two output streams are the bytes and characters written.
-/

namespace VAD

/-! ## Configuration (the constructor's default values, `VAD.cpp` line 16) -/

/-- A `signed char` sample. -/
abbrev Sample := Int

/-- Number of packets to look ahead. -/
def look_ahead : Nat := 1
/-- Number of packets to look behind. -/
def look_back : Nat := 1
/-- Number of samples per packet. -/
def packet_size : Nat := 160
/-- Upper threshold of the classifier. -/
def max_freq : Nat := 3400
/-- Lower threshold of the classifier. -/
def min_freq : Nat := 200

/-! ## The transform (`fourier`, lines 110-140) -/

section Transform

variable {K : Type} [Zero K] [Add K] [Sub K] [Mul K]

/-- The loop of lines 119-122: the samples at indices 0, 2, 4, ... -/
def evens {α : Type} : List α → List α
  | [] => []
  | [a] => [a]
  | a :: _ :: rest => a :: evens rest

/-- The loop of lines 126-129: the samples at indices 1, 3, 5, ... -/
def odds {α : Type} : List α → List α
  | [] => []
  | [_] => []
  | _ :: b :: rest => b :: odds rest

/-- The combine loop of lines 132-138 on a zero-initialised vector of size `n`:
`ret[i] = even[i] + w * odd[i]` and `ret[i + n/2] = even[i] - w * odd[i]`
for `i` in `[0, n/2)`, where `w = w i n` is the twiddle factor. -/
def combine (w : Nat → Nat → K) (n : Nat) (even_packets odd_packets : List K) : List K :=
  (List.range (n / 2)).foldl
    (fun ret i =>
      (ret.set i (even_packets.getD i 0 + w i n * odd_packets.getD i 0)).set (i + n / 2)
        (even_packets.getD i 0 - w i n * odd_packets.getD i 0))
    (List.replicate n 0)

/-- The recursion of `fourier` with the recursion depth bounded by `fuel`;
`none` when the fuel does not suffice. -/
def fourierFuel (w : Nat → Nat → K) : Nat → List K → Option (List K)
  | 0, _ => none
  | fuel + 1, f =>
    if f.length = 1 then some f
    else
      match fourierFuel w fuel (evens f), fourierFuel w fuel (odds f) with
      | some even_packets, some odd_packets => some (combine w f.length even_packets odd_packets)
      | _, _ => none

end Transform

/-- The twiddle factor of line 135: `w(cos(2 * PI * i / n), sin(2 * PI * i / n))`. -/
noncomputable def twiddle (i n : Nat) : ℂ :=
  ⟨Real.cos (2 * Real.pi * i / n), Real.sin (2 * Real.pi * i / n)⟩

/-- The function `fourier` over exact complex numbers.  A non-empty input of
length `n` needs recursion depth at most `n`; on the empty input the code
recurses forever, which is `none` here. -/
noncomputable def fourier (f : List ℂ) : Option (List ℂ) :=
  fourierFuel twiddle f.length f

/-- The discrete Fourier transform as the specification words it: index `k`
holds the sum over `n` of `x[n] * e^(-2πi·k·n/N)`. -/
noncomputable def dft (x : List ℂ) : List ℂ :=
  (List.range x.length).map fun k : Nat =>
    ∑ n in Finset.range x.length,
      x.getD n 0 * Complex.exp (-2 * Real.pi * Complex.I * k * n / x.length)

/-- The same direct sum with the positive exponent `e^(+2πi·k·n/N)`. -/
noncomputable def dftPos (x : List ℂ) : List ℂ :=
  (List.range x.length).map fun k : Nat =>
    ∑ n in Finset.range x.length,
      x.getD n 0 * Complex.exp (2 * Real.pi * Complex.I * k * n / x.length)

/-! ## The magnitude (`max_magnitude`, lines 141-152) -/

/-- The magnitude `sqrt(pow(re, 2) + pow(im, 2))` of one bin, over exact real
numbers (`magnitude_double` is the double the code computes). -/
noncomputable def magnitude (z : ℂ) : ℝ :=
  Real.sqrt (z.re ^ 2 + z.im ^ 2)

/-- The function `max_magnitude` over exact real numbers: a running maximum
that starts at `-1` (`max_magnitude_double` is the function on doubles). -/
noncomputable def max_magnitude (m : List ℂ) : ℝ :=
  m.foldl (fun max z => if magnitude z > max then magnitude z else max) (-1)

/-! ## The window and the streams -/

/-- The two vectors of the class `vad`. -/
structure Vad where
  packet : List (List Sample)
  has_voice : List Bool
deriving DecidableEq, Repr

/-- The window the constructor builds (lines 18-19). -/
def Vad.init : Vad :=
  ⟨List.replicate (1 + look_ahead) [], List.replicate (look_back + 1 + look_ahead) false⟩

/-- An input stream: the bytes not yet read and the `good()` bit. -/
structure IStream where
  data : List Sample
  good : Bool
deriving DecidableEq, Repr

/-- The two output streams: the data file and the text log. -/
structure Out where
  ofs : List Sample
  ofstxt : List Char
deriving DecidableEq, Repr

/-- The call `ifs.read((char *)&temp, 1)` on a good stream: the next byte when
there is one; at end of file the stream stops being good and `temp`, which is
not initialised, keeps an indeterminate value `junk`. -/
def IStream.read (junk : Sample) (ifs : IStream) : Sample × IStream :=
  match ifs.data with
  | [] => (junk, ⟨[], false⟩)
  | b :: rest => (b, ⟨rest, ifs.good⟩)

/-- The statement `packet[packet.size() - 1].push_back(temp)`. -/
def push_back (v : Vad) (temp : Sample) : Vad :=
  ⟨v.packet.set (v.packet.length - 1) (v.packet.getD (v.packet.length - 1) [] ++ [temp]),
    v.has_voice⟩

/-- The loop of `read_file` with `k` iterations left. -/
def read_loop (junk : Sample) : Nat → IStream → Vad → IStream × Vad
  | 0, ifs, v => (ifs, v)
  | k + 1, ifs, v =>
    if ifs.good then
      read_loop junk k (ifs.read junk).2 (push_back v (ifs.read junk).1)
    else (ifs, v)

/-- The method `read_file` (lines 51-59). -/
def read_file (junk : Sample) (ifs : IStream) (v : Vad) : IStream × Vad :=
  read_loop junk packet_size ifs v

/-- The method `voice_detection` (lines 61-66), the classification of the
newest packet (transform, maximal magnitude, thresholds) passed as `classify`;
`none` when the classification does not return. -/
def voice_detection (classify : List Sample → Option Bool) (v : Vad) : Option Vad :=
  match classify (v.packet.getD (v.packet.length - 1) []) with
  | none => none
  | some voice => some ⟨v.packet, v.has_voice.set (v.has_voice.length - 1) voice⟩

/-- The classification that `voice_detection` computes from the newest packet,
over exact real and complex numbers: each sample promoted to a complex number,
`fourier`, `max_magnitude`, and `magnitude > min_freq && magnitude < max_freq`
(`classifier_double` is the classification on doubles). -/
noncomputable def classifier (p : List Sample) : Option Bool :=
  match fourier (p.map fun s => ((s : ℤ) : ℂ)) with
  | none => none
  | some f => some (decide (max_magnitude f > min_freq) && decide (max_magnitude f < max_freq))

/-- The method `write_file` (lines 68-90). -/
def write_file (v : Vad) (out : Out) : Out :=
  let p0 := v.packet.getD 0 []
  if p0.length = 0 then out
  else if v.has_voice.any (fun voice => voice) then
    ⟨(List.range p0.length).foldl (fun o i => o ++ [p0.getD i 0]) out.ofs, out.ofstxt ++ ['1']⟩
  else
    let temp := List.replicate p0.length (0 : Sample)
    ⟨(List.range temp.length).foldl (fun o i => o ++ [temp.getD i 0]) out.ofs,
      out.ofstxt ++ ['0']⟩

/-- The method `shift_packets` (lines 92-99). -/
def shift_packets (v : Vad) : Vad :=
  let shifted := (List.range (v.packet.length - 1)).foldl
    (fun pk i => pk.set i (pk.getD (i + 1) [])) v.packet
  ⟨shifted.set (shifted.length - 1) [], v.has_voice⟩

/-- The method `shift_flags` (lines 101-108). -/
def shift_flags (v : Vad) : Vad :=
  let shifted := (List.range (v.has_voice.length - 1)).foldl
    (fun hv i => hv.set i (hv.getD (i + 1) false)) v.has_voice
  ⟨v.packet, shifted.set (shifted.length - 1) false⟩

/-- The body of the main loop after `read_file` (lines 33-36). -/
def iteration (classify : List Sample → Option Bool) (v : Vad) (out : Out) : Option (Vad × Out) :=
  match voice_detection classify v with
  | none => none
  | some v1 => some (shift_flags (shift_packets v1), write_file v1 out)

/-- The main loop `while (ifs.good())` (lines 30-37), at most `fuel` passes. -/
def main_loop (classify : List Sample → Option Bool) (junk : Sample) :
    Nat → IStream → Vad → Out → Option (Vad × Out)
  | 0, _, _, _ => none
  | fuel + 1, ifs, v, out =>
    if ifs.good then
      match iteration classify (read_file junk ifs v).2 out with
      | none => none
      | some r => main_loop classify junk fuel (read_file junk ifs v).1 r.1 r.2
    else some (v, out)

/-- The loop of the last iterations (lines 39-44), `k` passes. -/
def drain_loop : Nat → Vad → Out → Vad × Out
  | 0, v, out => (v, out)
  | k + 1, v, out => drain_loop k (shift_flags (shift_packets v)) (write_file v out)

/-- The method `process` (lines 23-49) on an input stream, from the window
the constructor built and with both outputs empty.  Every pass of the main
loop reads at least once, so `ifs.data.length + 2` passes always suffice. -/
def process (classify : List Sample → Option Bool) (junk : Sample) (ifs : IStream) : Option Out :=
  match main_loop classify junk (ifs.data.length + 2) ifs Vad.init ⟨[], []⟩ with
  | none => none
  | some r => some (drain_loop look_ahead r.1 r.2).2

/-- The packets that the calls of `read_file` in the main loop build, in
order, for at most `fuel` passes: each call starts from an empty newest slot. -/
def packets_read_loop (junk : Sample) : Nat → IStream → List (List Sample)
  | 0, _ => []
  | fuel + 1, ifs =>
    if ifs.good then
      ((read_file junk ifs Vad.init).2.packet.getD look_ahead []) ::
        packets_read_loop junk fuel (read_file junk ifs Vad.init).1
    else []

/-- The packets read in the main loop of `process`, in order. -/
def packets_read (junk : Sample) (ifs : IStream) : List (List Sample) :=
  packets_read_loop junk (ifs.data.length + 2) ifs

/-- The main loop on a given sequence of packets: for each packet the samples
are appended to the newest slot, as `read_file` does, and the rest of the loop
body runs. -/
def feed (classify : List Sample → Option Bool) : List (List Sample) → Vad → Out → Option (Vad × Out)
  | [], v, out => some (v, out)
  | p :: ps, v, out =>
    match iteration classify (p.foldl push_back v) out with
    | none => none
    | some r => feed classify ps r.1 r.2

/-- The driver on a given sequence of packets: the main loop, then the loop of
the last iterations. -/
def drive (classify : List Sample → Option Bool) (ps : List (List Sample)) : Option Out :=
  match feed classify ps Vad.init ⟨[], []⟩ with
  | none => none
  | some r => some (drain_loop look_ahead r.1 r.2).2

/-- The voice decision the specification gives the packets whose classifier
flags are `c`: for packet `i` the disjunction of the flags of packets `i - 1`,
`i` and `i + 1`, a flag outside the sequence being false. -/
def smooth (c : List Bool) : List Bool :=
  (List.range c.length).map fun i =>
    (decide (1 ≤ i) && c.getD (i - 1) false) || c.getD i false || c.getD (i + 1) false

/-- The character the log gets for a decision. -/
def log_char (voice : Bool) : Char := if voice then '1' else '0'

/-- The bytes the data output gets for a packet and its decision. -/
def emitted (p : List Sample) (voice : Bool) : List Sample :=
  if voice then p else List.replicate p.length 0

/-- The decisions of a run whose window holds the flags `a`, `b` of the two
packets before the ones still to come, whose flags are the list: one decision
per pass of the main loop and one for the last iteration. -/
def decisions (a b : Bool) : List Bool → List Bool
  | [] => [a || b]
  | c :: cs => (a || b || c) :: decisions b c cs

/-- What `write_file` adds for an oldest packet `q` and a decision `d`. -/
def put (q : List Sample) (d : Bool) (out : Out) : Out :=
  if q = [] then out else ⟨out.ofs ++ emitted q d, out.ofstxt ++ [log_char d]⟩

/-- What a run adds for the oldest packets `qs` and their decisions `ds`. -/
def put_all : List (List Sample) → List Bool → Out → Out
  | q :: qs, d :: ds, out => put_all qs ds (put q d out)
  | _, _, out => out

/-- The bytes that the loop of `read_file` appends to the newest slot in at
most `k` iterations, and the stream it leaves. -/
def read_bytes (junk : Sample) : Nat → IStream → IStream × List Sample
  | 0, ifs => (ifs, [])
  | k + 1, ifs =>
    if ifs.good then
      ((read_bytes junk k (ifs.read junk).2).1,
        (ifs.read junk).1 :: (read_bytes junk k (ifs.read junk).2).2)
    else (ifs, [])

/-- The number of reads a stream can still serve: one per byte left and one
for the read that meets the end of the file. -/
def reads_left (ifs : IStream) : Nat :=
  ifs.data.length + (if ifs.good then 1 else 0)

/-- The packets the specification of the read loop describes for a file
`data` that could be opened: one packet of `packet_size` bytes of the file for
each full block, then a last packet with the bytes that remain followed by the
one sample pushed after the read that met the end of the file. -/
def packets_expected (junk : Sample) (data : List Sample) : List (List Sample) :=
  (List.range (data.length / packet_size)).map
      (fun i : Nat => (data.drop (packet_size * i)).take packet_size)
    ++ [data.drop (packet_size * (data.length / packet_size)) ++ [junk]]

/-- The passes of the main loop, at most `fuel` of them: for each pass the
stream and the window at its start, and the window after `read_file`, the one
`voice_detection` is called on. -/
def loop_trace (classify : List Sample → Option Bool) (junk : Sample) :
    Nat → IStream → Vad → Out → List (IStream × Vad × Vad)
  | 0, _, _, _ => []
  | fuel + 1, ifs, v, out =>
    if ifs.good then
      (ifs, v, (read_file junk ifs v).2) ::
        (match iteration classify (read_file junk ifs v).2 out with
         | none => []
         | some r => loop_trace classify junk fuel (read_file junk ifs v).1 r.1 r.2)
    else []

/-- The passes of the main loop of `process`. -/
def process_trace (classify : List Sample → Option Bool) (junk : Sample) (ifs : IStream) :
    List (IStream × Vad × Vad) :=
  loop_trace classify junk (ifs.data.length + 2) ifs Vad.init ⟨[], []⟩

/-! ## Double precision

The transform above is exact.  What `max_magnitude` and `voice_detection`
compute is a `double`, so these two are also given over a model of doubles:
the values are those of `Dbl`, the comparisons are those of doubles (false on
not-a-number), and the arithmetic on finite values is a parameter `Fpu`, of
which only a few facts true of every IEEE arithmetic are used. -/

/-- A value of type `double`: not-a-number, an infinity, or a finite number
(every finite double is a rational number; the two zeros are not told apart). -/
inductive Dbl where
  | nan
  | ninf
  | pinf
  | fin (q : ℚ)
deriving DecidableEq

/-- The comparison `a < b` of two doubles, false when either is not-a-number. -/
def Dbl.lt : Dbl → Dbl → Bool
  | .fin a, .fin b => decide (a < b)
  | .ninf, .fin _ => true
  | .ninf, .pinf => true
  | .fin _, .pinf => true
  | _, _ => false

/-- The comparison `a > b` of two doubles. -/
def Dbl.gt (a b : Dbl) : Bool := Dbl.lt b a

/-- The order `a ≤ b` of two doubles, false when either is not-a-number. -/
def Dbl.le : Dbl → Dbl → Bool
  | .nan, _ => false
  | _, .nan => false
  | .ninf, _ => true
  | _, .pinf => true
  | .fin a, .fin b => decide (a ≤ b)
  | _, _ => false

/-- A value of type `complex<double>`. -/
structure CDbl where
  re : Dbl
  im : Dbl
deriving DecidableEq

/-- A double-precision arithmetic: for finite operands, the double that each
operation the code uses returns (a rounded result, an infinity on overflow,
not-a-number where the operation has no value), and the product of two
`complex<double>` as the compiler and its library compute it.  The four facts
hold in every IEEE arithmetic: a square root is not negative, and the square
root of 0, `pow(0, 2)` and `0 + 0` are 0. -/
structure Fpu where
  add : ℚ → ℚ → Dbl
  sub : ℚ → ℚ → Dbl
  mul : ℚ → ℚ → Dbl
  div : ℚ → ℚ → Dbl
  sqrt : ℚ → Dbl
  pow2 : ℚ → Dbl
  cos : ℚ → Dbl
  sin : ℚ → Dbl
  cmul : CDbl → CDbl → CDbl
  sqrt_sign : ∀ q, sqrt q = Dbl.nan ∨ sqrt q = Dbl.pinf ∨ ∃ y, 0 ≤ y ∧ sqrt q = Dbl.fin y
  sqrt_zero : sqrt 0 = Dbl.fin 0
  pow2_zero : pow2 0 = Dbl.fin 0
  add_zero : add 0 0 = Dbl.fin 0

/-- The double for a rational result: the result itself up to `2 ^ 1024` in
absolute value, an infinity beyond. -/
def clamp (q : ℚ) : Dbl :=
  if 2 ^ 1024 < q then .pinf else if q < -(2 ^ 1024) then .ninf else .fin q

/-- The sum `a + b` of two doubles. -/
def addD (A : Fpu) : Dbl → Dbl → Dbl
  | .nan, _ => .nan
  | _, .nan => .nan
  | .pinf, .ninf => .nan
  | .ninf, .pinf => .nan
  | .pinf, _ => .pinf
  | _, .pinf => .pinf
  | .ninf, _ => .ninf
  | _, .ninf => .ninf
  | .fin a, .fin b => A.add a b

/-- The difference `a - b` of two doubles. -/
def subD (A : Fpu) : Dbl → Dbl → Dbl
  | .nan, _ => .nan
  | _, .nan => .nan
  | .pinf, .pinf => .nan
  | .ninf, .ninf => .nan
  | .pinf, _ => .pinf
  | _, .ninf => .pinf
  | .ninf, _ => .ninf
  | _, .pinf => .ninf
  | .fin a, .fin b => A.sub a b

/-- The product of an infinity, positive when `pos`, and a finite double. -/
def mul_inf (pos : Bool) (b : ℚ) : Dbl :=
  if b = 0 then .nan else if decide (0 < b) = pos then .pinf else .ninf

/-- The product `a * b` of two doubles. -/
def mulD (A : Fpu) : Dbl → Dbl → Dbl
  | .nan, _ => .nan
  | _, .nan => .nan
  | .pinf, .pinf => .pinf
  | .pinf, .ninf => .ninf
  | .ninf, .pinf => .ninf
  | .ninf, .ninf => .pinf
  | .pinf, .fin b => mul_inf true b
  | .ninf, .fin b => mul_inf false b
  | .fin a, .pinf => mul_inf true a
  | .fin a, .ninf => mul_inf false a
  | .fin a, .fin b => A.mul a b

/-- The quotient `a / b` of two doubles; a zero divisor is the positive zero
(the one divisor in the code is a size converted to double). -/
def divD (A : Fpu) : Dbl → Dbl → Dbl
  | .nan, _ => .nan
  | _, .nan => .nan
  | .pinf, .pinf => .nan
  | .pinf, .ninf => .nan
  | .ninf, .pinf => .nan
  | .ninf, .ninf => .nan
  | .pinf, .fin b => if 0 ≤ b then .pinf else .ninf
  | .ninf, .fin b => if 0 ≤ b then .ninf else .pinf
  | .fin _, .pinf => .fin 0
  | .fin _, .ninf => .fin 0
  | .fin a, .fin b =>
    if b = 0 then (if a = 0 then .nan else if 0 < a then .pinf else .ninf) else A.div a b

/-- The call `sqrt(x)`. -/
def sqrtD (A : Fpu) : Dbl → Dbl
  | .nan => .nan
  | .ninf => .nan
  | .pinf => .pinf
  | .fin q => A.sqrt q

/-- The call `pow(x, 2)`. -/
def powD (A : Fpu) : Dbl → Dbl
  | .nan => .nan
  | .ninf => .pinf
  | .pinf => .pinf
  | .fin q => A.pow2 q

/-- The call `cos(x)`. -/
def cosD (A : Fpu) : Dbl → Dbl
  | .fin q => A.cos q
  | _ => .nan

/-- The call `sin(x)`. -/
def sinD (A : Fpu) : Dbl → Dbl
  | .fin q => A.sin q
  | _ => .nan

/-- The sum of two `complex<double>`. -/
def caddD (A : Fpu) (a b : CDbl) : CDbl := ⟨addD A a.re b.re, addD A a.im b.im⟩

/-- The difference of two `complex<double>`. -/
def csubD (A : Fpu) (a b : CDbl) : CDbl := ⟨subD A a.re b.re, subD A a.im b.im⟩

/-- The product of two `complex<double>`. -/
def cmulD (A : Fpu) (a b : CDbl) : CDbl := A.cmul a b

/-- The constant `PI` of `VAD.hpp` line 109, `3.14159265358979323846` as a
double: the double nearest to it is `884279719003555 / 2 ^ 48`. -/
def PI : ℚ := 884279719003555 / 281474976710656

/-- The twiddle factor of line 135 in doubles:
`w(cos(2 * PI * i / f.size()), sin(2 * PI * i / f.size()))`. -/
def twiddle_double (A : Fpu) (i n : Nat) : CDbl :=
  ⟨cosD A (divD A (mulD A (mulD A (.fin 2) (.fin PI)) (.fin i)) (.fin n)),
    sinD A (divD A (mulD A (mulD A (.fin 2) (.fin PI)) (.fin i)) (.fin n))⟩

/-- The function `fourier` on `complex<double>`: the same recursion and combine
loop as `fourier`, with the arithmetic of doubles. -/
def fourier_double (A : Fpu) (f : List CDbl) : Option (List CDbl) :=
  @fourierFuel CDbl (Zero.mk ⟨.fin 0, .fin 0⟩) (Add.mk (caddD A)) (Sub.mk (csubD A))
    (Mul.mk (cmulD A)) (twiddle_double A) f.length f

/-- The magnitude `sqrt(pow(re, 2) + pow(im, 2))` of one bin, as the double the
code computes. -/
def magnitude_double (A : Fpu) (z : CDbl) : Dbl :=
  sqrtD A (addD A (powD A z.re) (powD A z.im))

/-- The function `max_magnitude` (lines 141-152) on doubles: the running
maximum starts at `-1` and a bin replaces it when `magnitude > max` holds. -/
def max_magnitude_double (A : Fpu) (m : List CDbl) : Dbl :=
  m.foldl
    (fun max z => if Dbl.gt (magnitude_double A z) max then magnitude_double A z else max)
    (.fin (-1))

/-- The classification of `voice_detection` (lines 63-65) on doubles: each
sample promoted to a `complex<double>`, `fourier`, `max_magnitude`, and
`magnitude > min_freq && magnitude < max_freq`. -/
def classifier_double (A : Fpu) (p : List Sample) : Option Bool :=
  match fourier_double A (p.map fun s : Sample => ⟨.fin ((s : ℤ) : ℚ), .fin 0⟩) with
  | none => none
  | some f =>
    some (Dbl.gt (max_magnitude_double A f) (.fin min_freq)
      && Dbl.lt (max_magnitude_double A f) (.fin max_freq))


/-- An arithmetic to evaluate the model on examples: sums, differences,
products and quotients are exact up to overflow, the square root is rounded
down to a multiple of `2 ^ (-52)`, cosine and sine are the first terms of
their series, and the complex product is the plain product, part by part. -/
def Fpu.fixed : Fpu where
  add a b := clamp (a + b)
  sub a b := clamp (a - b)
  mul a b := clamp (a * b)
  div a b := clamp (a / b)
  sqrt q := if q < 0 then .nan else .fin ((Nat.sqrt (⌊q * 4 ^ 52⌋.toNat) : ℚ) / 2 ^ 52)
  pow2 q := clamp (q * q)
  cos q := clamp (1 - q ^ 2 / 2 + q ^ 4 / 24)
  sin q := clamp (q - q ^ 3 / 6)
  cmul a b :=
    let mul : Dbl → Dbl → Dbl
      | .fin x, .fin y => clamp (x * y)
      | _, _ => .nan
    let add : Dbl → Dbl → Dbl
      | .fin x, .fin y => clamp (x + y)
      | _, _ => .nan
    let sub : Dbl → Dbl → Dbl
      | .fin x, .fin y => clamp (x - y)
      | _, _ => .nan
    ⟨sub (mul a.re b.re) (mul a.im b.im), add (mul a.re b.im) (mul a.im b.re)⟩
  sqrt_sign q := by
    by_cases h : q < 0
    · exact Or.inl (by simp [h])
    · refine Or.inr (Or.inr ⟨(Nat.sqrt (⌊q * 4 ^ 52⌋.toNat) : ℚ) / 2 ^ 52, by positivity, ?_⟩)
      simp [h]
  sqrt_zero := by simp
  pow2_zero := by
    have h : ¬ ((2 : ℚ) ^ 1024 < 0) := not_lt.mpr (by positivity)
    simp [clamp, h]
  add_zero := by
    have h : ¬ ((2 : ℚ) ^ 1024 < 0) := not_lt.mpr (by positivity)
    simp [clamp, h]

/-! ## The window: one pass of the loop body -/

theorem push_back_two (p0 p1 : List Sample) (hv : List Bool) (t : Sample) :
    push_back ⟨[p0, p1], hv⟩ t = ⟨[p0, p1 ++ [t]], hv⟩ := rfl

theorem foldl_push_back_two (p : List Sample) :
    ∀ (p0 p1 : List Sample) (hv : List Bool),
      p.foldl push_back ⟨[p0, p1], hv⟩ = ⟨[p0, p1 ++ p], hv⟩ := by
  induction p with
  | nil => intro p0 p1 hv; simp
  | cons t p ih =>
    intro p0 p1 hv
    rw [List.foldl_cons, push_back_two, ih]
    simp

theorem foldl_write_take (p : List Sample) :
    ∀ (n : Nat) (acc : List Sample),
      (List.range n).foldl (fun o i => o ++ [p.getD i 0]) acc
        = acc ++ (List.range n).map (fun i => p.getD i 0) := by
  intro n
  induction n with
  | zero => intro acc; simp
  | succ n ih =>
    intro acc
    rw [List.range_succ, List.foldl_append, ih]
    simp

theorem map_getD_range (p : List Sample) :
    (List.range p.length).map (fun i => p.getD i 0) = p := by
  apply List.ext_getElem
  · simp
  · intro i h1 h2
    simp [List.getD_eq_getElem?_getD, List.getElem?_eq_getElem h2]

theorem any_id (hv : List Bool) : hv.any (fun voice => voice) = true ↔ ∃ b ∈ hv, b = true := by
  simp

theorem write_file_cons (q : List Sample) (rest : List (List Sample)) (hv : List Bool)
    (out : Out) :
    write_file ⟨q :: rest, hv⟩ out = put q (hv.any fun voice => voice) out := by
  unfold write_file put
  by_cases hq : q = []
  · simp [hq]
  · have hlen : q.length ≠ 0 := by simpa using hq
    simp only [List.getD_cons_zero, hlen, if_false, hq]
    cases hany : hv.any (fun voice => voice)
    · simp only [Bool.false_eq_true, if_false, List.length_replicate]
      have hz := map_getD_range (List.replicate q.length 0)
      rw [List.length_replicate] at hz
      rw [foldl_write_take, hz]
      simp [emitted, log_char]
    · simp only [if_true]
      rw [foldl_write_take, map_getD_range]
      simp [emitted, log_char]

theorem iteration_two (classify : List Sample → Option Bool) (q p : List Sample)
    (a b x c : Bool) (out : Out) (hc : classify p = some c) :
    iteration classify ⟨[q, p], [a, b, x]⟩ out
      = some (⟨[p, []], [b, c, false]⟩, put q (a || b || c) out) := by
  have hvd : voice_detection classify ⟨[q, p], [a, b, x]⟩ = some ⟨[q, p], [a, b, c]⟩ := by
    simp [voice_detection, hc]
  have hsh : shift_flags (shift_packets ⟨[q, p], [a, b, c]⟩) = ⟨[p, []], [b, c, false]⟩ := rfl
  unfold iteration
  rw [hvd]
  simp only [hsh, write_file_cons]
  simp [List.any, Bool.or_assoc]

theorem drain_two (q : List Sample) (a b : Bool) (out : Out) :
    (drain_loop look_ahead ⟨[q, []], [a, b, false]⟩ out).2 = put q (a || b) out := by
  have h : drain_loop look_ahead ⟨[q, []], [a, b, false]⟩ out
      = (shift_flags (shift_packets ⟨[q, []], [a, b, false]⟩),
          write_file ⟨[q, []], [a, b, false]⟩ out) := rfl
  rw [h, write_file_cons]
  simp [List.any]

theorem feed_drain (classify : List Sample → Option Bool) :
    ∀ (ps : List (List Sample)) (cs : List Bool) (q : List Sample) (a b : Bool) (out : Out),
      ps.map classify = cs.map some →
      ∃ r, feed classify ps ⟨[q, []], [a, b, false]⟩ out = some r ∧
        (drain_loop look_ahead r.1 r.2).2 = put_all (q :: ps) (decisions a b cs) out := by
  intro ps
  induction ps with
  | nil =>
    intro cs q a b out hc
    cases cs with
    | nil => exact ⟨_, rfl, by rw [drain_two]; rfl⟩
    | cons c cs => simp at hc
  | cons p ps ih =>
    intro cs q a b out hc
    cases cs with
    | nil => simp at hc
    | cons c cs =>
      simp only [List.map_cons, List.cons.injEq] at hc
      obtain ⟨r, hr, hd⟩ := ih cs p b c (put q (a || b || c) out) hc.2
      refine ⟨r, ?_, ?_⟩
      · have hfold : p.foldl push_back ⟨[q, []], [a, b, false]⟩ = ⟨[q, p], [a, b, false]⟩ := by
          rw [foldl_push_back_two]; simp
        simp only [feed, hfold, iteration_two classify q p a b false c out hc.1]
        exact hr
      · rw [hd]; rfl

theorem put_all_nonempty :
    ∀ (qs : List (List Sample)) (ds : List Bool) (out : Out),
      (∀ q ∈ qs, q ≠ []) → qs.length = ds.length →
      put_all qs ds out
        = ⟨out.ofs ++ (List.zipWith emitted qs ds).flatten, out.ofstxt ++ ds.map log_char⟩ := by
  intro qs
  induction qs with
  | nil =>
    intro ds out _ hlen
    cases ds with
    | nil => simp [put_all]
    | cons d ds => simp at hlen
  | cons q qs ih =>
    intro ds out hne hlen
    cases ds with
    | nil => simp at hlen
    | cons d ds =>
      have hq : q ≠ [] := hne q (List.mem_cons_self _ _)
      simp only [put_all]
      rw [ih ds _ (fun x hx => hne x (List.mem_cons_of_mem _ hx)) (by simpa using hlen)]
      simp [put, hq]

theorem decisions_eq (cs : List Bool) :
    ∀ a b : Bool,
      decisions a b cs = (List.range (cs.length + 1)).map fun i =>
        (a :: b :: cs).getD i false || (a :: b :: cs).getD (i + 1) false
          || (a :: b :: cs).getD (i + 2) false := by
  induction cs with
  | nil => intro a b; simp [decisions, List.range_succ]
  | cons c cs ih =>
    intro a b
    rw [decisions, ih b c, List.length_cons, List.range_succ_eq_map (cs.length + 1)]
    simp [Function.comp_def]

theorem decisions_tail (cs : List Bool) :
    (decisions false false cs).tail = smooth cs := by
  rw [decisions_eq, List.range_succ_eq_map, List.map_cons, List.tail_cons, List.map_map]
  unfold smooth
  apply List.map_congr_left
  intro i _
  cases i with
  | zero => simp
  | succ i => simp

theorem decisions_length (cs : List Bool) : ∀ a b : Bool, (decisions a b cs).length = cs.length + 1 := by
  intro a b; rw [decisions_eq]; simp

theorem smooth_length (cs : List Bool) : (smooth cs).length = cs.length := by
  simp [smooth]

/-- The driver on a sequence of non-empty packets whose flags are `cs`: the
log holds the smoothed decisions and the data output holds, packet by packet,
the packet itself or as many zeros. -/
theorem drive_eq (classify : List Sample → Option Bool) (ps : List (List Sample))
    (cs : List Bool) (hne : ∀ p ∈ ps, p ≠ []) (hc : ps.map classify = cs.map some) :
    drive classify ps
      = some ⟨(List.zipWith emitted ps (smooth cs)).flatten, (smooth cs).map log_char⟩ := by
  obtain ⟨r, hr, hd⟩ := feed_drain classify ps cs [] false false ⟨[], []⟩ hc
  have hinit : Vad.init = ⟨[[], []], [false, false, false]⟩ := rfl
  have hlen : ps.length = cs.length := by
    have := congrArg List.length hc
    simpa using this
  unfold drive
  rw [hinit, hr]
  simp only [hd]
  have hdec : decisions false false cs
      = (decisions false false cs).head (by
          intro h; have := decisions_length cs false false; rw [h] at this; simp at this)
        :: smooth cs := by
    rw [← decisions_tail, List.head_cons_tail]
  rw [hdec]
  simp only [put_all, put, if_true]
  rw [put_all_nonempty ps (smooth cs) _ hne (by rw [smooth_length, hlen])]
  simp

/-! ## The input stream and the main loop -/

theorem read_loop_two (junk : Sample) :
    ∀ (k : Nat) (ifs : IStream) (p0 p1 : List Sample) (hv : List Bool),
      read_loop junk k ifs ⟨[p0, p1], hv⟩
        = ((read_bytes junk k ifs).1, ⟨[p0, p1 ++ (read_bytes junk k ifs).2], hv⟩) := by
  intro k
  induction k with
  | zero => intro ifs p0 p1 hv; simp [read_loop, read_bytes]
  | succ k ih =>
    intro ifs p0 p1 hv
    by_cases hg : ifs.good = true
    · simp only [read_loop, read_bytes, hg, if_true, push_back_two, ih]
      simp
    · simp [read_loop, read_bytes, hg]

theorem reads_left_read (junk : Sample) (ifs : IStream) (hg : ifs.good = true) :
    reads_left (ifs.read junk).2 < reads_left ifs := by
  obtain ⟨data, good⟩ := ifs
  cases data with
  | nil => simp_all [IStream.read, reads_left]
  | cons b rest => simp_all [IStream.read, reads_left]

theorem reads_left_read_bytes (junk : Sample) :
    ∀ (k : Nat) (ifs : IStream), reads_left (read_bytes junk k ifs).1 ≤ reads_left ifs := by
  intro k
  induction k with
  | zero => intro ifs; simp [read_bytes]
  | succ k ih =>
    intro ifs
    by_cases hg : ifs.good = true
    · simp only [read_bytes, hg, if_true]
      exact le_trans (ih _) (le_of_lt (reads_left_read junk ifs hg))
    · simp [read_bytes, hg]

theorem reads_left_read_bytes_lt (junk : Sample) (k : Nat) (ifs : IStream)
    (hg : ifs.good = true) :
    reads_left (read_bytes junk (k + 1) ifs).1 < reads_left ifs := by
  simp only [read_bytes, hg, if_true]
  exact lt_of_le_of_lt (reads_left_read_bytes junk k _) (reads_left_read junk ifs hg)

theorem read_bytes_ne_nil (junk : Sample) (k : Nat) (ifs : IStream) (hg : ifs.good = true) :
    (read_bytes junk (k + 1) ifs).2 ≠ [] := by
  simp [read_bytes, hg]

theorem packet_size_succ : packet_size = 159 + 1 := rfl

theorem read_file_init (junk : Sample) (ifs : IStream) :
    (read_file junk ifs Vad.init).2.packet.getD look_ahead []
      = (read_bytes junk packet_size ifs).2 := by
  have hinit : Vad.init = ⟨[[], []], [false, false, false]⟩ := rfl
  rw [read_file, hinit, read_loop_two]
  simp [look_ahead]

theorem read_file_init_stream (junk : Sample) (ifs : IStream) :
    (read_file junk ifs Vad.init).1 = (read_bytes junk packet_size ifs).1 := by
  have hinit : Vad.init = ⟨[[], []], [false, false, false]⟩ := rfl
  rw [read_file, hinit, read_loop_two]

theorem main_loop_eq_feed (classify : List Sample → Option Bool) (junk : Sample) :
    ∀ (fuel : Nat) (ifs : IStream) (q : List Sample) (a b : Bool) (out : Out),
      reads_left ifs < fuel →
      main_loop classify junk fuel ifs ⟨[q, []], [a, b, false]⟩ out
        = feed classify (packets_read_loop junk fuel ifs) ⟨[q, []], [a, b, false]⟩ out := by
  intro fuel
  induction fuel with
  | zero => intro ifs q a b out h; exact absurd h (Nat.not_lt_zero _)
  | succ fuel ih =>
    intro ifs q a b out h
    by_cases hg : ifs.good = true
    · have hlt : reads_left (read_bytes junk packet_size ifs).1 < fuel := by
        rw [packet_size_succ]
        exact lt_of_lt_of_le (reads_left_read_bytes_lt junk 159 ifs hg) (Nat.lt_succ_iff.mp h)
      simp only [main_loop, packets_read_loop, hg, if_true, feed, read_file_init,
        read_file_init_stream, foldl_push_back_two]
      simp only [read_file, read_loop_two, List.nil_append]
      cases hcl : classify (read_bytes junk packet_size ifs).2 with
      | none => simp [iteration, voice_detection, hcl]
      | some c =>
        simp only [iteration_two classify q _ a b false c out hcl]
        exact ih _ _ _ _ _ hlt
    · simp [main_loop, packets_read_loop, hg, feed]

/-- The method `process` is the driver on the packets read. -/
theorem process_eq_drive (classify : List Sample → Option Bool) (junk : Sample)
    (ifs : IStream) :
    process classify junk ifs = drive classify (packets_read junk ifs) := by
  have hinit : Vad.init = ⟨[[], []], [false, false, false]⟩ := rfl
  have hfuel : reads_left ifs < ifs.data.length + 2 := by
    unfold reads_left; split <;> omega
  unfold process drive packets_read
  rw [hinit, main_loop_eq_feed classify junk _ ifs [] false false ⟨[], []⟩ hfuel]

theorem packets_read_loop_ne_nil (junk : Sample) :
    ∀ (fuel : Nat) (ifs : IStream), ∀ p ∈ packets_read_loop junk fuel ifs, p ≠ [] := by
  intro fuel
  induction fuel with
  | zero => intro ifs p hp; simp [packets_read_loop] at hp
  | succ fuel ih =>
    intro ifs p hp
    by_cases hg : ifs.good = true
    · simp only [packets_read_loop, hg, if_true, List.mem_cons, read_file_init] at hp
      rcases hp with rfl | hp
      · rw [packet_size_succ]; exact read_bytes_ne_nil junk 159 ifs hg
      · exact ih _ p hp
    · simp [packets_read_loop, hg] at hp

theorem packets_read_ne_nil (junk : Sample) (ifs : IStream) :
    ∀ p ∈ packets_read junk ifs, p ≠ [] :=
  packets_read_loop_ne_nil junk _ ifs

theorem flags_exist (classify : List Sample → Option Bool)
    (htotal : ∀ p, p ≠ [] → ∃ c, classify p = some c) :
    ∀ ps : List (List Sample), (∀ p ∈ ps, p ≠ []) → ∃ cs : List Bool, ps.map classify = cs.map some := by
  intro ps
  induction ps with
  | nil => intro _; exact ⟨[], rfl⟩
  | cons p ps ih =>
    intro hne
    obtain ⟨c, hc⟩ := htotal p (hne p (List.mem_cons_self _ _))
    obtain ⟨cs, hcs⟩ := ih (fun x hx => hne x (List.mem_cons_of_mem _ hx))
    exact ⟨c :: cs, by simp [hc, hcs]⟩

theorem emitted_length (p : List Sample) (d : Bool) : (emitted p d).length = p.length := by
  cases d <;> simp [emitted]

theorem emitted_cases (p : List Sample) (d : Bool) :
    emitted p d = p ∨ emitted p d = List.replicate p.length 0 := by
  cases d <;> simp [emitted]

theorem forall₂_emitted :
    ∀ (ps : List (List Sample)) (ds : List Bool), ps.length = ds.length →
      List.Forall₂ (fun e p => e.length = p.length ∧ (e = p ∨ e = List.replicate p.length 0))
        (List.zipWith emitted ps ds) ps := by
  intro ps
  induction ps with
  | nil => intro ds _; simp
  | cons p ps ih =>
    intro ds hlen
    cases ds with
    | nil => simp at hlen
    | cons d ds =>
      simp only [List.zipWith_cons_cons]
      exact List.Forall₂.cons ⟨emitted_length p d, emitted_cases p d⟩
        (ih ds (by simpa using hlen))

theorem flatten_take_zipWith_length :
    ∀ (ps : List (List Sample)) (ds : List Bool) (i : Nat), ps.length = ds.length →
      ((List.zipWith emitted ps ds).take i).flatten.length
        = ((ps.take i).map List.length).sum := by
  intro ps
  induction ps with
  | nil => intro ds i _; simp
  | cons p ps ih =>
    intro ds i hlen
    cases ds with
    | nil => simp at hlen
    | cons d ds =>
      cases i with
      | zero => simp
      | succ i =>
        simp only [List.zipWith_cons_cons, List.take_succ_cons, List.flatten_cons,
          List.length_append, List.map_cons, List.sum_cons, emitted_length]
        rw [ih ds i (by simpa using hlen)]

theorem smooth_of_flag (cs : List Bool) (i : Nat) (hi : i < cs.length)
    (h : cs.getD i false = true) : (smooth cs).getD i false = true := by
  unfold smooth
  rw [List.getD_eq_getElem?_getD] at h
  rw [List.getD_eq_getElem?_getD, List.getElem?_map, List.getElem?_range hi]
  simp [h]

/-! ## The transform: sizes and indices -/

section TransformLemmas

variable {K : Type} [Zero K] [Add K] [Sub K] [Mul K]

theorem evens_length {α : Type} : ∀ f : List α, (evens f).length = (f.length + 1) / 2
  | [] => by simp [evens]
  | [_] => by simp [evens]
  | _ :: _ :: rest => by
    simp only [evens, List.length_cons, evens_length rest]
    omega

theorem odds_length {α : Type} : ∀ f : List α, (odds f).length = f.length / 2
  | [] => by simp [odds]
  | [_] => by simp [odds]
  | _ :: _ :: rest => by
    simp only [odds, List.length_cons, odds_length rest]
    omega

theorem evens_getD {α : Type} (d : α) :
    ∀ (f : List α) (j : Nat), (evens f).getD j d = f.getD (2 * j) d
  | [], j => by simp [evens]
  | [a], j => by cases j <;> simp [evens, Nat.mul_succ]
  | a :: b :: rest, j => by
    cases j with
    | zero => simp [evens]
    | succ j =>
      have ih := evens_getD d rest j
      simp only [List.getD_eq_getElem?_getD] at ih
      simp [evens, Nat.mul_succ, ih]

theorem odds_getD {α : Type} (d : α) :
    ∀ (f : List α) (j : Nat), (odds f).getD j d = f.getD (2 * j + 1) d
  | [], j => by simp [odds]
  | [a], j => by simp [odds]
  | a :: b :: rest, j => by
    cases j with
    | zero => simp [odds]
    | succ j =>
      have ih := odds_getD d rest j
      simp only [List.getD_eq_getElem?_getD] at ih
      simp [odds, Nat.mul_succ, ih]

/-- The vector after `t` iterations of the combine loop, index by index. -/
theorem combine_loop_getD {L : Type} [Zero L] (A B : Nat → L) (n h : Nat) :
    ∀ t k : Nat,
      ((List.range t).foldl (fun ret i => (ret.set i (A i)).set (i + h) (B i))
          (List.replicate n 0)).length = n ∧
      (t ≤ h → h + t ≤ n → k < n →
        ((List.range t).foldl (fun ret i => (ret.set i (A i)).set (i + h) (B i))
          (List.replicate n 0)).getD k 0
          = if k < t then A k else if h ≤ k ∧ k < h + t then B (k - h) else 0) := by
  intro t
  induction t with
  | zero =>
    intro k
    refine ⟨by simp, fun _ _ hk => ?_⟩
    have hno : ¬ (h ≤ k ∧ k < h) := by omega
    simp [List.getD_eq_getElem?_getD, hk, hno]
  | succ t ih =>
    intro k
    rw [List.range_succ, List.foldl_append]
    simp only [List.foldl_cons, List.foldl_nil]
    refine ⟨by simp [(ih k).1], fun ht hn hk => ?_⟩
    have hlen := (ih k).1
    have hprev := (ih k).2 (by omega) (by omega) hk
    rw [List.getD_eq_getElem?_getD] at hprev ⊢
    rw [List.getElem?_set, List.getElem?_set]
    simp only [List.length_set, hlen]
    by_cases h1 : t + h = k
    · have h2 : t + h < n := by omega
      have h3 : ¬ k < t + 1 := by omega
      have h4 : h ≤ k ∧ k < h + (t + 1) := by omega
      have h5 : k - h = t := by omega
      simp [h1, h2, h3, h4, h5, hk]
    · by_cases h6 : t = k
      · have h7 : k < k + 1 := by omega
        subst h6
        simp [h1, hk]
      · rw [if_neg h1, if_neg h6, hprev]
        by_cases h8 : k < t
        · have h9 : k < t + 1 := by omega
          simp [h8, h9]
        · have h9 : ¬ k < t + 1 := by omega
          have h10 : (h ≤ k ∧ k < h + (t + 1)) ↔ (h ≤ k ∧ k < h + t) := by
            constructor <;> intro hh <;> omega
          simp [h8, h9, h10]

theorem combine_length (w : Nat → Nat → K) (n : Nat) (e o : List K) :
    (combine w n e o).length = n :=
  (combine_loop_getD (fun i => e.getD i 0 + w i n * o.getD i 0)
    (fun i => e.getD i 0 - w i n * o.getD i 0) n (n / 2) (n / 2) 0).1

theorem combine_getD (w : Nat → Nat → K) (n : Nat) (e o : List K) (k : Nat) (hk : k < n) :
    (combine w n e o).getD k 0
      = if k < n / 2 then e.getD k 0 + w k n * o.getD k 0
        else if k < n / 2 + n / 2 then
          e.getD (k - n / 2) 0 - w (k - n / 2) n * o.getD (k - n / 2) 0
        else 0 := by
  have h := (combine_loop_getD (fun i => e.getD i 0 + w i n * o.getD i 0)
    (fun i => e.getD i 0 - w i n * o.getD i 0) n (n / 2) (n / 2) k).2 (le_refl _)
    (by omega) hk
  unfold combine
  rw [h]
  by_cases h1 : k < n / 2
  · simp [h1]
  · have h2 : n / 2 ≤ k := by omega
    simp [h1, h2]

/-- With fuel at least the length, the recursion on a non-empty input returns
a vector of the length of the input. -/
theorem fourierFuel_length (w : Nat → Nat → K) :
    ∀ (fuel : Nat) (f : List K), 1 ≤ f.length → f.length ≤ fuel →
      ∃ r, fourierFuel w fuel f = some r ∧ r.length = f.length := by
  intro fuel
  induction fuel with
  | zero => intro f h1 h2; omega
  | succ fuel ih =>
    intro f h1 h2
    by_cases hone : f.length = 1
    · exact ⟨f, by simp [fourierFuel, hone], rfl⟩
    · obtain ⟨e, he, _⟩ := ih (evens f) (by rw [evens_length]; omega)
        (by rw [evens_length]; omega)
      obtain ⟨o, ho, _⟩ := ih (odds f) (by rw [odds_length]; omega)
        (by rw [odds_length]; omega)
      exact ⟨combine w f.length e o, by simp [fourierFuel, hone, he, ho], combine_length _ _ _ _⟩

/-- More fuel does not change what the recursion returns. -/
theorem fourierFuel_mono (w : Nat → Nat → K) :
    ∀ (fuel : Nat) (f r : List K), fourierFuel w fuel f = some r →
      fourierFuel w (fuel + 1) f = some r := by
  intro fuel
  induction fuel with
  | zero => intro f r h; simp [fourierFuel] at h
  | succ fuel ih =>
    intro f r h
    by_cases hone : f.length = 1
    · simp only [fourierFuel, hone, if_true] at h ⊢
      exact h
    · rw [fourierFuel] at h ⊢
      simp only [hone, if_false] at h ⊢
      cases he : fourierFuel w fuel (evens f) with
      | none => simp [he] at h
      | some e =>
        cases ho : fourierFuel w fuel (odds f) with
        | none => simp [he, ho] at h
        | some o =>
          rw [ih _ _ he, ih _ _ ho]
          simpa [he, ho] using h

/-- On the empty input the recursion never returns, whatever the fuel. -/
theorem fourierFuel_nil (w : Nat → Nat → K) : ∀ fuel : Nat, fourierFuel w fuel [] = none := by
  intro fuel
  induction fuel with
  | zero => rfl
  | succ fuel ih => simp [fourierFuel, evens, ih]

end TransformLemmas

/-! ## The transform: the butterfly over exact complex numbers -/

theorem kernel_even (h k j : ℕ) (hh : h ≠ 0) :
    Complex.exp (2 * Real.pi * Complex.I * k * ((2 * j : ℕ) : ℂ) / ((2 * h : ℕ) : ℂ))
      = Complex.exp (2 * Real.pi * Complex.I * k * j / h) := by
  congr 1
  have : (h : ℂ) ≠ 0 := by exact_mod_cast hh
  push_cast
  field_simp
  ring

theorem kernel_odd (h k j : ℕ) (hh : h ≠ 0) :
    Complex.exp (2 * Real.pi * Complex.I * k * ((2 * j + 1 : ℕ) : ℂ) / ((2 * h : ℕ) : ℂ))
      = Complex.exp (2 * Real.pi * Complex.I * k / ((2 * h : ℕ) : ℂ))
        * Complex.exp (2 * Real.pi * Complex.I * k * j / h) := by
  rw [← Complex.exp_add]
  congr 1
  have : (h : ℂ) ≠ 0 := by exact_mod_cast hh
  push_cast
  field_simp
  ring

theorem kernel_even_shift (h k j : ℕ) (hh : h ≠ 0) :
    Complex.exp (2 * Real.pi * Complex.I * ((k + h : ℕ) : ℂ) * ((2 * j : ℕ) : ℂ) / ((2 * h : ℕ) : ℂ))
      = Complex.exp (2 * Real.pi * Complex.I * k * j / h) := by
  have hc : (h : ℂ) ≠ 0 := by exact_mod_cast hh
  have : 2 * Real.pi * Complex.I * ((k + h : ℕ) : ℂ) * ((2 * j : ℕ) : ℂ) / ((2 * h : ℕ) : ℂ)
      = 2 * Real.pi * Complex.I * k * j / h + j * (2 * Real.pi * Complex.I) := by
    push_cast
    field_simp
    ring
  rw [this, Complex.exp_add, Complex.exp_nat_mul_two_pi_mul_I, mul_one]

theorem kernel_odd_shift (h k j : ℕ) (hh : h ≠ 0) :
    Complex.exp (2 * Real.pi * Complex.I * ((k + h : ℕ) : ℂ) * ((2 * j + 1 : ℕ) : ℂ) / ((2 * h : ℕ) : ℂ))
      = - (Complex.exp (2 * Real.pi * Complex.I * k / ((2 * h : ℕ) : ℂ))
        * Complex.exp (2 * Real.pi * Complex.I * k * j / h)) := by
  have hc : (h : ℂ) ≠ 0 := by exact_mod_cast hh
  have : 2 * Real.pi * Complex.I * ((k + h : ℕ) : ℂ) * ((2 * j + 1 : ℕ) : ℂ) / ((2 * h : ℕ) : ℂ)
      = 2 * Real.pi * Complex.I * k / ((2 * h : ℕ) : ℂ) + 2 * Real.pi * Complex.I * k * j / h
        + j * (2 * Real.pi * Complex.I) + Real.pi * Complex.I := by
    push_cast
    field_simp
    ring
  rw [this, Complex.exp_add, Complex.exp_add, Complex.exp_add, Complex.exp_nat_mul_two_pi_mul_I,
    Complex.exp_pi_mul_I]
  ring

theorem sum_even_odd (f : ℕ → ℂ) (h : ℕ) :
    ∑ j in Finset.range (2 * h), f j
      = ∑ j in Finset.range h, f (2 * j) + ∑ j in Finset.range h, f (2 * j + 1) := by
  induction h with
  | zero => simp
  | succ h ih =>
    rw [Nat.mul_succ, Finset.sum_range_succ, Finset.sum_range_succ, ih,
      Finset.sum_range_succ, Finset.sum_range_succ]
    ring

theorem twiddle_exp (i n : ℕ) :
    twiddle i n = Complex.exp (2 * Real.pi * Complex.I * i / n) := by
  unfold twiddle
  have : (2 * Real.pi * Complex.I * i / n : ℂ) = ((2 * Real.pi * i / n : ℝ) : ℂ) * Complex.I := by
    push_cast; ring
  rw [this]
  apply Complex.ext
  · rw [Complex.exp_ofReal_mul_I_re]
  · rw [Complex.exp_ofReal_mul_I_im]

theorem butterfly_lo (x : List ℂ) (h k : ℕ) (hh : h ≠ 0) :
    ∑ j in Finset.range (2 * h),
        x.getD j 0 * Complex.exp (2 * Real.pi * Complex.I * k * j / ((2 * h : ℕ) : ℂ))
      = ∑ j in Finset.range h,
          (evens x).getD j 0 * Complex.exp (2 * Real.pi * Complex.I * k * j / h)
        + twiddle k (2 * h) * ∑ j in Finset.range h,
          (odds x).getD j 0 * Complex.exp (2 * Real.pi * Complex.I * k * j / h) := by
  rw [sum_even_odd, twiddle_exp, Finset.mul_sum]
  congr 1
  · apply Finset.sum_congr rfl
    intro j _
    rw [kernel_even h k j hh, evens_getD]
  · apply Finset.sum_congr rfl
    intro j _
    rw [kernel_odd h k j hh, odds_getD]
    ring

theorem butterfly_hi (x : List ℂ) (h k : ℕ) (hh : h ≠ 0) :
    ∑ j in Finset.range (2 * h),
        x.getD j 0
          * Complex.exp (2 * Real.pi * Complex.I * ((k + h : ℕ) : ℂ) * j / ((2 * h : ℕ) : ℂ))
      = ∑ j in Finset.range h,
          (evens x).getD j 0 * Complex.exp (2 * Real.pi * Complex.I * k * j / h)
        - twiddle k (2 * h) * ∑ j in Finset.range h,
          (odds x).getD j 0 * Complex.exp (2 * Real.pi * Complex.I * k * j / h) := by
  rw [sum_even_odd, twiddle_exp, Finset.mul_sum, sub_eq_add_neg, ← Finset.sum_neg_distrib]
  congr 1
  · apply Finset.sum_congr rfl
    intro j _
    rw [kernel_even_shift h k j hh, evens_getD]
  · apply Finset.sum_congr rfl
    intro j _
    rw [kernel_odd_shift h k j hh, odds_getD]
    ring

theorem dftPos_length (x : List ℂ) : (dftPos x).length = x.length := by
  simp [dftPos]

theorem dftPos_getD (x : List ℂ) (k : ℕ) (hk : k < x.length) :
    (dftPos x).getD k 0
      = ∑ n in Finset.range x.length,
          x.getD n 0 * Complex.exp (2 * Real.pi * Complex.I * k * n / x.length) := by
  unfold dftPos
  rw [List.getD_eq_getElem?_getD, List.getElem?_map, List.getElem?_range hk]
  rfl

theorem ext_getD (l1 l2 : List ℂ) (hlen : l1.length = l2.length)
    (h : ∀ k, k < l1.length → l1.getD k 0 = l2.getD k 0) : l1 = l2 := by
  apply List.ext_getElem hlen
  intro k h1 h2
  have := h k h1
  simpa [List.getD_eq_getElem?_getD, List.getElem?_eq_getElem h1,
    List.getElem?_eq_getElem h2] using this

/-- One level of the recursion: the combine loop applied to the direct sums of
the two halves gives the direct sum of the whole. -/
theorem combine_dftPos (x : List ℂ) (h : ℕ) (hh : h ≠ 0) (hx : x.length = 2 * h) :
    combine twiddle x.length (dftPos (evens x)) (dftPos (odds x)) = dftPos x := by
  have he : (evens x).length = h := by rw [evens_length]; omega
  have ho : (odds x).length = h := by rw [odds_length]; omega
  apply ext_getD
  · rw [combine_length, dftPos_length]
  · intro k hk
    rw [combine_length] at hk
    rw [combine_getD _ _ _ _ _ hk, dftPos_getD x k hk, hx]
    have hhalf : 2 * h / 2 = h := by omega
    rw [hhalf]
    by_cases h1 : k < h
    · rw [if_pos h1, dftPos_getD _ k (by omega), dftPos_getD _ k (by omega), he, ho]
      exact (butterfly_lo x h k hh).symm
    · have h2 : k < h + h := by omega
      have h3 : k - h < h := by omega
      rw [if_neg h1, if_pos h2, dftPos_getD _ (k - h) (by omega),
        dftPos_getD _ (k - h) (by omega), he, ho]
      have h4 : k = (k - h) + h := by omega
      conv_rhs => rw [h4]
      exact (butterfly_hi x h (k - h) hh).symm

theorem dftPos_singleton (x : List ℂ) (hx : x.length = 1) : dftPos x = x := by
  match x, hx with
  | [a], _ => simp [dftPos]

/-- On an input of length `2 ^ m` the recursion with more than `m` units of
fuel returns the direct sum with the positive exponent. -/
theorem fourierFuel_pow_two :
    ∀ (m fuel : ℕ) (x : List ℂ), x.length = 2 ^ m → m < fuel →
      fourierFuel twiddle fuel x = some (dftPos x) := by
  intro m
  induction m with
  | zero =>
    intro fuel x hx hf
    obtain ⟨fuel, rfl⟩ := Nat.exists_eq_succ_of_ne_zero (Nat.pos_iff_ne_zero.mp hf)
    have h1 : x.length = 1 := by simpa using hx
    simp [fourierFuel, h1, dftPos_singleton x h1]
  | succ m ih =>
    intro fuel x hx hf
    obtain ⟨fuel, rfl⟩ := Nat.exists_eq_succ_of_ne_zero (Nat.not_eq_zero_of_lt hf)
    have hpos : 0 < 2 ^ m := Nat.two_pow_pos m
    have hx2 : x.length = 2 * 2 ^ m := by rw [hx, pow_succ]; ring
    have hne : x.length ≠ 1 := by omega
    have he : (evens x).length = 2 ^ m := by rw [evens_length]; omega
    have ho : (odds x).length = 2 ^ m := by rw [odds_length]; omega
    simp only [fourierFuel, hne, if_false, ih fuel (evens x) he (by omega),
      ih fuel (odds x) ho (by omega)]
    rw [combine_dftPos x (2 ^ m) (by omega) hx2]

theorem fourier_pow_two (x : List ℂ) (m : ℕ) (hx : x.length = 2 ^ m) :
    fourier x = some (dftPos x) := by
  unfold fourier
  exact fourierFuel_pow_two m x.length x hx (by rw [hx]; exact Nat.lt_two_pow m)

/-! ## The transform on concrete inputs -/

theorem twiddle_zero (n : ℕ) : twiddle 0 n = 1 := by
  simp [twiddle]; rfl

theorem twiddle_one_four : twiddle 1 4 = Complex.I := by
  have h : (2 * Real.pi * ((1 : ℕ) : ℝ) / ((4 : ℕ) : ℝ)) = Real.pi / 2 := by
    push_cast; ring
  unfold twiddle
  rw [h, Real.cos_pi_div_two, Real.sin_pi_div_two]
  rfl

theorem range_one : List.range 1 = [0] := rfl

theorem range_two : List.range 2 = [0, 1] := rfl

theorem range_three : List.range 3 = [0, 1, 2] := rfl

theorem exp_neg_quarter :
    Complex.exp (-(2 * Real.pi * Complex.I) / 4) = -Complex.I := by
  have h : (-(2 * Real.pi * Complex.I) / 4 : ℂ) = ((-(Real.pi / 2) : ℝ) : ℂ) * Complex.I := by
    push_cast; ring
  rw [h]
  apply Complex.ext
  · rw [Complex.exp_ofReal_mul_I_re, Real.cos_neg, Real.cos_pi_div_two]; simp
  · rw [Complex.exp_ofReal_mul_I_im, Real.sin_neg, Real.sin_pi_div_two]; simp

theorem fourier_delta_one :
    fourier [0, 1, 0, 0] = some [1, Complex.I, -1, -Complex.I] := by
  simp [fourier, fourierFuel, evens, odds, combine, range_two, range_one, List.replicate,
    twiddle_zero, twiddle_one_four]

theorem dft_delta_one : (dft [0, 1, 0, 0]).getD 1 0 = -Complex.I := by
  simp [dft, Finset.sum_range_succ, List.getD_eq_getElem?_getD]
  exact exp_neg_quarter

theorem fourier_six :
    fourier [1, 0, 0, 0, 0, 0] = some [1, 1, 0, 1, 1, 0] := by
  simp [fourier, fourierFuel, evens, odds, combine, range_three, range_two, range_one,
    List.replicate, twiddle_zero]

theorem dft_six : dft [1, 0, 0, 0, 0, 0] = [1, 1, 1, 1, 1, 1] := by
  simp [dft, Finset.sum_range_succ, List.range_succ]

theorem dftPos_six : dftPos [1, 0, 0, 0, 0, 0] = [1, 1, 1, 1, 1, 1] := by
  simp [dftPos, Finset.sum_range_succ, List.range_succ]

/-! ## The classifier -/

theorem fourier_returns (f : List ℂ) (hf : f ≠ []) :
    ∃ r, fourier f = some r ∧ r.length = f.length := by
  have h1 : 1 ≤ f.length := by
    cases f with
    | nil => exact absurd rfl hf
    | cons a t => simp
  exact fourierFuel_length twiddle f.length f h1 (le_refl _)

theorem classifier_returns (p : List Sample) (hp : p ≠ []) : ∃ c, classifier p = some c := by
  obtain ⟨r, hr, _⟩ := fourier_returns (p.map fun s => ((s : ℤ) : ℂ)) (by simpa using hp)
  refine ⟨decide (max_magnitude r > min_freq) && decide (max_magnitude r < max_freq), ?_⟩
  simp only [classifier, hr]

/-! ## The driver: smoothing, emission and order -/

/-- C1: under the defaults, when a sequence of non-empty packets whose
classifier flags are `cs` is fed through the driver (the main loop, then the
loop of the last iterations), the driver returns, and the decision emitted for
packet `i`, as a log character and as the choice between the packet and
silence, is the disjunction of the flags of packets `i - 1`, `i` and `i + 1`,
a flag outside the sequence being false; `process` gives that same output on
every stream from which these packets are read. -/
theorem drive_smooths (classify : List Sample → Option Bool) (ps : List (List Sample))
    (cs : List Bool) (hne : ∀ p ∈ ps, p ≠ []) (hc : ps.map classify = cs.map some) :
    ∃ out, drive classify ps = some out ∧
      out.ofstxt = (smooth cs).map log_char ∧
      out.ofs = (List.zipWith emitted ps (smooth cs)).flatten ∧
      (smooth cs).length = ps.length ∧
      (∀ i, i < ps.length →
        (smooth cs).getD i false
          = ((decide (1 ≤ i) && cs.getD (i - 1) false) || cs.getD i false
              || cs.getD (i + 1) false)) ∧
      ∀ junk ifs, packets_read junk ifs = ps → process classify junk ifs = some out := by
  have hlen : ps.length = cs.length := by
    have := congrArg List.length hc
    simpa using this
  refine ⟨_, drive_eq classify ps cs hne hc, rfl, rfl, by rw [smooth_length, hlen], ?_, ?_⟩
  · intro i hi
    unfold smooth
    rw [List.getD_eq_getElem?_getD, List.getElem?_map, List.getElem?_range (hlen ▸ hi)]
    simp
  · intro junk ifs hps
    rw [process_eq_drive, hps]
    exact drive_eq classify ps cs hne hc

/-- Witness of C1: the flags `[F, F, T, F, F]` give the decisions
`[F, T, T, T, F]`. -/
theorem drive_smooths_witness :
    smooth [false, false, true, false, false] = [false, true, true, true, false] ∧
    ∃ out, drive (fun p => some (p == [1])) [[0], [0], [1], [0], [0]] = some out ∧
      out.ofstxt = ['0', '1', '1', '1', '0'] ∧ out.ofs = [0, 0, 1, 0, 0] := by
  obtain ⟨out, h1, h2, h3, _⟩ :=
    drive_smooths (fun p => some (p == [1])) [[0], [0], [1], [0], [0]]
      [false, false, true, false, false] (by decide) (by decide)
  exact ⟨by decide, out, h1, h2.trans (by decide), h3.trans (by decide)⟩

theorem packets_read_one_byte (junk : Sample) :
    packets_read junk ⟨[7], true⟩ = [[7, junk]] := rfl

/-- C2, the code at a one-byte input: the run returns and the data output
holds two bytes, one for the byte of the input and one for the value pushed
after the read that met the end of the file. -/
theorem process_one_byte_emits_two (junk : Sample) :
    ∃ out, process classifier junk ⟨[7], true⟩ = some out ∧ out.ofs.length = 2 ∧
      out.ofs.length ≠ (⟨[7], true⟩ : IStream).data.length := by
  obtain ⟨c, hc⟩ := classifier_returns [7, junk] (by simp)
  have hrun : process classifier junk ⟨[7], true⟩
      = some ⟨(List.zipWith emitted [[7, junk]] (smooth [c])).flatten,
          (smooth [c]).map log_char⟩ := by
    rw [process_eq_drive, packets_read_one_byte]
    exact drive_eq classifier [[7, junk]] [c] (by simp) (by simp [hc])
  have hlen : (List.zipWith emitted [[7, junk]] (smooth [c])).flatten.length = 2 := by
    simp [emitted_length, smooth, List.range_succ]
  refine ⟨_, hrun, hlen, ?_⟩
  rw [hlen]
  decide

/-- C3: for a window whose oldest slot `packet[0]` is `p0`, `write_file`
appends `p0` itself and the character `'1'` when `p0` is not empty and some
flag of `has_voice` is true, appends `p0.size()` zeros and the character `'0'`
when `p0` is not empty and every flag is false, and leaves both outputs as
they are when `p0` is empty. -/
theorem write_file_spec (v : Vad) (out : Out) (p0 : List Sample) (rest : List (List Sample))
    (hp : v.packet = p0 :: rest) :
    (p0 ≠ [] → (∃ b ∈ v.has_voice, b = true) →
      write_file v out = ⟨out.ofs ++ p0, out.ofstxt ++ ['1']⟩) ∧
    (p0 ≠ [] → (∀ b ∈ v.has_voice, b = false) →
      write_file v out = ⟨out.ofs ++ List.replicate p0.length 0, out.ofstxt ++ ['0']⟩) ∧
    (p0 = [] → write_file v out = out) := by
  obtain ⟨pk, hv⟩ := v
  simp only at hp
  subst hp
  rw [write_file_cons]
  refine ⟨fun hq hany => ?_, fun hq hall => ?_, fun hq => ?_⟩
  · have h : hv.any (fun voice => voice) = true := (any_id hv).mpr hany
    simp [put, hq, h, emitted, log_char]
  · have h : hv.any (fun voice => voice) = false := by
      cases hb : hv.any (fun voice => voice)
      · rfl
      · obtain ⟨b, hb1, hb2⟩ := (any_id hv).mp hb
        rw [hall b hb1] at hb2
        exact absurd hb2 (by decide)
    simp [put, hq, h, emitted, log_char]
  · simp [put, hq]

/-- Witness of C3: a window with a voiced flag writes its oldest packet. -/
theorem write_file_spec_witness :
    (([1, 2] : List Sample) ≠ [] → (∃ b ∈ [false, true, false], b = true) →
      write_file ⟨[[1, 2], [3]], [false, true, false]⟩ ⟨[9], ['0']⟩
        = ⟨[9] ++ [1, 2], ['0'] ++ ['1']⟩) ∧
    (([1, 2] : List Sample) ≠ [] → (∀ b ∈ [false, true, false], b = false) →
      write_file ⟨[[1, 2], [3]], [false, true, false]⟩ ⟨[9], ['0']⟩
        = ⟨[9] ++ List.replicate ([1, 2] : List Sample).length 0, ['0'] ++ ['0']⟩) ∧
    (([1, 2] : List Sample) = [] →
      write_file ⟨[[1, 2], [3]], [false, true, false]⟩ ⟨[9], ['0']⟩ = ⟨[9], ['0']⟩) :=
  write_file_spec ⟨[[1, 2], [3]], [false, true, false]⟩ ⟨[9], ['0']⟩ [1, 2] [[3]] rfl

/-- C4: in every run of `process` with a classifier that returns on non-empty
packets, the run returns; the log has one character per packet read in the
main loop; and the data output is the concatenation of one block per packet
read, in the order read, the block of a packet having the length of the packet
and being either the packet itself or zeros. -/
theorem process_emits_every_packet (classify : List Sample → Option Bool) (junk : Sample)
    (ifs : IStream) (htotal : ∀ p, p ≠ [] → ∃ c, classify p = some c) :
    ∃ out blocks, process classify junk ifs = some out ∧
      out.ofstxt.length = (packets_read junk ifs).length ∧
      out.ofs = blocks.flatten ∧
      List.Forall₂ (fun e p => e.length = p.length ∧ (e = p ∨ e = List.replicate p.length 0))
        blocks (packets_read junk ifs) := by
  have hne := packets_read_ne_nil junk ifs
  obtain ⟨cs, hcs⟩ := flags_exist classify htotal (packets_read junk ifs) hne
  have hlen : (packets_read junk ifs).length = cs.length := by
    have := congrArg List.length hcs
    simpa using this
  refine ⟨⟨(List.zipWith emitted (packets_read junk ifs) (smooth cs)).flatten,
    (smooth cs).map log_char⟩,
    List.zipWith emitted (packets_read junk ifs) (smooth cs), ?_, ?_, rfl, ?_⟩
  · rw [process_eq_drive]
    exact drive_eq classify _ cs hne hcs
  · simp [smooth_length, hlen]
  · exact forall₂_emitted _ _ (by rw [smooth_length, hlen])

/-- Witness of C4: a three-byte stream and the classifier of the source,
which returns on every non-empty packet. -/
theorem process_emits_every_packet_witness :
    ∃ out blocks, process classifier 0 ⟨[1, 2, 3], true⟩ = some out ∧
      out.ofstxt.length = (packets_read 0 ⟨[1, 2, 3], true⟩).length ∧
      out.ofs = blocks.flatten ∧
      List.Forall₂ (fun e p => e.length = p.length ∧ (e = p ∨ e = List.replicate p.length 0))
        blocks (packets_read 0 ⟨[1, 2, 3], true⟩) :=
  process_emits_every_packet classifier 0 ⟨[1, 2, 3], true⟩ classifier_returns

/-- C5: when a sequence of non-empty packets is fed through the driver, a
packet whose own classifier flag is true appears in the data output byte for
byte, right after as many bytes as the packets before it hold, whatever the
flags of the other packets are. -/
theorem voiced_packet_verbatim (classify : List Sample → Option Bool)
    (ps : List (List Sample)) (cs : List Bool) (hne : ∀ p ∈ ps, p ≠ [])
    (hc : ps.map classify = cs.map some) (i : Nat) (hi : i < ps.length)
    (hflag : cs.getD i false = true) :
    ∃ out pre post, drive classify ps = some out ∧
      out.ofs = pre ++ ps.getD i [] ++ post ∧
      pre.length = ((ps.take i).map List.length).sum ∧
      ∀ junk ifs, packets_read junk ifs = ps → process classify junk ifs = some out := by
  have hlen : ps.length = cs.length := by
    have := congrArg List.length hc
    simpa using this
  have hsl : ps.length = (smooth cs).length := by rw [smooth_length, hlen]
  have hbl : i < (List.zipWith emitted ps (smooth cs)).length := by
    simp [← hsl, hi]
  have hblock : (List.zipWith emitted ps (smooth cs))[i] = ps.getD i [] := by
    have hs := smooth_of_flag cs i (hlen ▸ hi) hflag
    rw [List.getD_eq_getElem?_getD, List.getElem?_eq_getElem (hsl ▸ hi)] at hs
    simp only [Option.getD_some] at hs
    rw [List.getElem_zipWith, hs, List.getD_eq_getElem?_getD, List.getElem?_eq_getElem hi]
    simp [emitted]
  refine ⟨_, ((List.zipWith emitted ps (smooth cs)).take i).flatten,
    ((List.zipWith emitted ps (smooth cs)).drop (i + 1)).flatten,
    drive_eq classify ps cs hne hc, ?_, flatten_take_zipWith_length ps (smooth cs) i hsl, ?_⟩
  · show (List.zipWith emitted ps (smooth cs)).flatten = _
    conv_lhs => rw [← List.take_append_drop i (List.zipWith emitted ps (smooth cs))]
    rw [List.drop_eq_getElem_cons hbl, hblock]
    simp
  · intro junk ifs hps
    rw [process_eq_drive, hps]
    exact drive_eq classify ps cs hne hc

/-- Witness of C5: the voiced packet `[5, 6]` between two silent ones. -/
theorem voiced_packet_verbatim_witness :
    ∃ out pre post, drive (fun p => some (p == [5, 6])) [[1], [5, 6], [2]] = some out ∧
      out.ofs = pre ++ [5, 6] ++ post ∧ pre.length = 1 := by
  obtain ⟨out, pre, post, h1, h2, h3, _⟩ :=
    voiced_packet_verbatim (fun p => some (p == [5, 6])) [[1], [5, 6], [2]]
      [false, true, false] (by decide) (by decide) 1 (by decide) (by decide)
  exact ⟨out, pre, post, h1, h2, h3⟩

/-! ## The transform, the magnitude and the classifier: the statements -/

/-- C6, as stated, fails: on the four samples `[0, 1, 0, 0]` the code returns
`[1, i, -1, -i]`, while bin 1 of the transform the specification defines is
`-i`. -/
theorem fourier_ne_forward_dft :
    ([0, 1, 0, 0] : List ℂ).length = 2 ^ 2 ∧
    fourier [0, 1, 0, 0] = some [1, Complex.I, -1, -Complex.I] ∧
    (dft [0, 1, 0, 0]).getD 1 0 = -Complex.I ∧
    fourier [0, 1, 0, 0] ≠ some (dft [0, 1, 0, 0]) := by
  refine ⟨rfl, fourier_delta_one, dft_delta_one, ?_⟩
  rw [fourier_delta_one]
  intro h
  have h1 := dft_delta_one
  rw [← Option.some.inj h] at h1
  simp only [List.getD_eq_getElem?_getD, List.getElem?_cons_succ, List.getElem?_cons_zero,
    Option.getD_some] at h1
  have h2 := congrArg Complex.im h1
  simp at h2
  norm_num at h2

/-- C6, amended: for every sequence of complex samples whose length `N` is a
power of two, `fourier` returns a sequence of length `N` whose entry `k` is the
sum over `n` of `x[n] * e^(+2πi·k·n/N)`, the direct sum with the positive
exponent and no normalisation. -/
theorem fourier_pow_two_positive_kernel (x : List ℂ) (m : ℕ) (hx : x.length = 2 ^ m) :
    ∃ r, fourier x = some r ∧ r.length = x.length ∧
      ∀ k, k < x.length →
        r.getD k 0 = ∑ n in Finset.range x.length,
          x.getD n 0 * Complex.exp (2 * Real.pi * Complex.I * k * n / x.length) :=
  ⟨dftPos x, fourier_pow_two x m hx, dftPos_length x, fun k hk => dftPos_getD x k hk⟩

/-- Witness of C6, amended: a sequence of four samples. -/
theorem fourier_pow_two_positive_kernel_witness :
    ∃ r, fourier [1, 2, 3, 4] = some r ∧ r.length = ([1, 2, 3, 4] : List ℂ).length ∧
      ∀ k, k < ([1, 2, 3, 4] : List ℂ).length →
        r.getD k 0 = ∑ n in Finset.range ([1, 2, 3, 4] : List ℂ).length,
          ([1, 2, 3, 4] : List ℂ).getD n 0
            * Complex.exp (2 * Real.pi * Complex.I * k * n / ([1, 2, 3, 4] : List ℂ).length) :=
  fourier_pow_two_positive_kernel [1, 2, 3, 4] 2 rfl

/-- C7, the code at an input of length 6: on `[1, 0, 0, 0, 0, 0]` the code
returns `[1, 1, 0, 1, 1, 0]`, while the 6-point transform of that input is
`[1, 1, 1, 1, 1, 1]` with either sign of the exponent. -/
theorem fourier_six_not_dft :
    fourier [1, 0, 0, 0, 0, 0] = some [1, 1, 0, 1, 1, 0] ∧
    dft [1, 0, 0, 0, 0, 0] = [1, 1, 1, 1, 1, 1] ∧
    dftPos [1, 0, 0, 0, 0, 0] = [1, 1, 1, 1, 1, 1] ∧
    fourier [1, 0, 0, 0, 0, 0] ≠ some (dft [1, 0, 0, 0, 0, 0]) := by
  refine ⟨fourier_six, dft_six, dftPos_six, ?_⟩
  rw [fourier_six, dft_six]
  intro h
  have h1 := congrArg (fun l : List ℂ => l.getD 2 0) (Option.some.inj h)
  simp at h1

/-- C8: for every non-empty input of length `N`, odd or even, `fourier`
returns, and what it returns has exactly `N` entries. -/
theorem fourier_length (f : List ℂ) (hf : f ≠ []) :
    ∃ r, fourier f = some r ∧ r.length = f.length :=
  fourier_returns f hf

/-- Witness of C8: an input of odd length. -/
theorem fourier_length_witness :
    ∃ r, fourier [1, 2, 3] = some r ∧ r.length = ([1, 2, 3] : List ℂ).length :=
  fourier_length [1, 2, 3] (by simp)

/-! ## Silence, the base case and the empty spectrum -/

theorem getD_all_false (cs : List Bool) (h : ∀ c ∈ cs, c = false) (i : Nat) :
    cs.getD i false = false := by
  rw [List.getD_eq_getElem?_getD]
  cases hi : cs[i]? with
  | none => rfl
  | some c => exact h c (List.getElem?_mem hi)

theorem smooth_all_false (cs : List Bool) (h : ∀ c ∈ cs, c = false) :
    ∀ d ∈ smooth cs, d = false := by
  intro d hd
  unfold smooth at hd
  obtain ⟨i, _, rfl⟩ := List.mem_map.mp hd
  rw [getD_all_false cs h, getD_all_false cs h, getD_all_false cs h]
  simp

theorem zipWith_emitted_silent :
    ∀ (ps : List (List Sample)) (ds : List Bool), (∀ d ∈ ds, d = false) →
      ∀ b ∈ (List.zipWith emitted ps ds).flatten, b = 0 := by
  intro ps
  induction ps with
  | nil => intro ds _ b hb; simp at hb
  | cons p ps ih =>
    intro ds hds b hb
    cases ds with
    | nil => simp at hb
    | cons d ds =>
      have hd : d = false := hds d (List.mem_cons_self _ _)
      subst hd
      simp only [List.zipWith_cons_cons, List.flatten_cons, List.mem_append] at hb
      rcases hb with hb | hb
      · simp only [emitted, Bool.false_eq_true, if_false] at hb
        exact (List.mem_replicate.mp hb).2
      · exact ih ds (fun x hx => hds x (List.mem_cons_of_mem _ hx)) b hb

theorem classifier_zero : classifier [0] = some false := by
  have hf : fourier [((0 : ℤ) : ℂ)] = some [((0 : ℤ) : ℂ)] := by
    simp [fourier, fourierFuel]
  have hm : max_magnitude [((0 : ℤ) : ℂ)] = 0 := by
    simp [max_magnitude, magnitude]
  simp only [classifier, List.map_cons, List.map_nil, hf, hm]
  simp [min_freq]

/-- C11: in a run in which the classifier flag of every packet read is false
(no maximal magnitude inside the open band from 200 to 3400), the run
returns, every byte of the data output is zero and every character of the
log is `'0'`. -/
theorem silent_input_silent_output (classify : List Sample → Option Bool) (junk : Sample)
    (ifs : IStream) (hsilent : ∀ p ∈ packets_read junk ifs, classify p = some false) :
    ∃ out, process classify junk ifs = some out ∧
      (∀ b ∈ out.ofs, b = 0) ∧ (∀ ch ∈ out.ofstxt, ch = '0') ∧
      out.ofstxt.length = (packets_read junk ifs).length := by
  have hne := packets_read_ne_nil junk ifs
  have hcs : (packets_read junk ifs).map classify
      = (List.replicate (packets_read junk ifs).length false).map some := by
    apply List.ext_getElem
    · simp
    · intro i h1 h2
      simp only [List.getElem_map, List.getElem_replicate]
      exact hsilent _ (List.getElem_mem _)
  have hfalse : ∀ d ∈ smooth (List.replicate (packets_read junk ifs).length false), d = false :=
    smooth_all_false _ (fun c hc => (List.mem_replicate.mp hc).2)
  refine ⟨⟨(List.zipWith emitted (packets_read junk ifs)
      (smooth (List.replicate (packets_read junk ifs).length false))).flatten,
    (smooth (List.replicate (packets_read junk ifs).length false)).map log_char⟩, ?_, ?_, ?_, ?_⟩
  · rw [process_eq_drive]
    exact drive_eq classify _ _ hne hcs
  · exact zipWith_emitted_silent _ _ hfalse
  · intro ch hch
    obtain ⟨d, hd, rfl⟩ := List.mem_map.mp hch
    rw [hfalse d hd]
    rfl
  · simp [smooth_length]

/-- Witness of C11: the empty file, whose only packet is the one sample pushed
at the end of the file, here 0, with the classifier of the source. -/
theorem silent_input_silent_output_witness :
    ∃ out, process classifier 0 ⟨[], true⟩ = some out ∧
      (∀ b ∈ out.ofs, b = 0) ∧ (∀ ch ∈ out.ofstxt, ch = '0') ∧
      out.ofstxt.length = (packets_read 0 ⟨[], true⟩).length :=
  silent_input_silent_output classifier 0 ⟨[], true⟩ (by
    intro p hp
    have hps : packets_read 0 ⟨[], true⟩ = [[0]] := rfl
    rw [hps, List.mem_singleton] at hp
    rw [hp]
    exact classifier_zero)

/-- C13: for every single-sample sequence `[x]`, `fourier [x]` returns `[x]`,
and so does the recursion with any fuel that is not zero. -/
theorem fourier_single (x : ℂ) :
    fourier [x] = some [x] ∧ ∀ fuel, fourierFuel twiddle (fuel + 1) [x] = some [x] := by
  constructor
  · simp [fourier, fourierFuel]
  · intro fuel
    simp [fourierFuel]

/-! ## The transform: the recursion, the kernel and the end bins -/

theorem fourierFuel_mono_le {K : Type} [Zero K] [Add K] [Sub K] [Mul K] (w : Nat → Nat → K) (f r : List K) :
    ∀ (k j : Nat), fourierFuel w k f = some r → fourierFuel w (k + j) f = some r := by
  intro k j h
  induction j with
  | zero => exact h
  | succ j ih => exact fourierFuel_mono w (k + j) f r ih

/-- For an input of at least two samples `fourier` is the combine loop on what
`fourier` returns for the two subsequences, and both of these calls return. -/
theorem fourier_unfold (f : List ℂ) (hN : 2 ≤ f.length) :
    ∃ e o, fourier (evens f) = some e ∧ fourier (odds f) = some o ∧
      e.length = (evens f).length ∧ o.length = (odds f).length ∧
      fourier f = some (combine twiddle f.length e o) := by
  have hel : (evens f).length = (f.length + 1) / 2 := evens_length f
  have hol : (odds f).length = f.length / 2 := odds_length f
  obtain ⟨e, he, hee⟩ := fourierFuel_length twiddle (evens f).length (evens f)
    (by omega) (le_refl _)
  obtain ⟨o, ho, hoo⟩ := fourierFuel_length twiddle (odds f).length (odds f)
    (by omega) (le_refl _)
  refine ⟨e, o, he, ho, hee, hoo, ?_⟩
  obtain ⟨n, hn⟩ : ∃ n, f.length = n + 1 := ⟨f.length - 1, by omega⟩
  have he2 : fourierFuel twiddle n (evens f) = some e := by
    have := fourierFuel_mono_le twiddle (evens f) e (evens f).length (n - (evens f).length) he
    rwa [Nat.add_sub_cancel' (by omega)] at this
  have ho2 : fourierFuel twiddle n (odds f) = some o := by
    have := fourierFuel_mono_le twiddle (odds f) o (odds f).length (n - (odds f).length) ho
    rwa [Nat.add_sub_cancel' (by omega)] at this
  have hne : f.length ≠ 1 := by omega
  unfold fourier
  rw [hn, fourierFuel]
  simp only [he2, ho2]
  rw [if_neg hne, hn]

theorem dft_getD (x : List ℂ) (k : ℕ) (hk : k < x.length) :
    (dft x).getD k 0
      = ∑ n in Finset.range x.length,
          x.getD n 0 * Complex.exp (-2 * Real.pi * Complex.I * k * n / x.length) := by
  unfold dft
  rw [List.getD_eq_getElem?_getD, List.getElem?_map, List.getElem?_range hk]
  rfl

theorem getD_real (x : List ℂ) (hreal : ∀ z ∈ x, z.im = 0) (n : Nat) :
    (starRingEnd ℂ) (x.getD n 0) = x.getD n 0 := by
  rw [Complex.conj_eq_iff_im, List.getD_eq_getElem?_getD]
  cases hn : x[n]? with
  | none => simp
  | some z => exact hreal z (List.getElem?_mem hn)

/-- For real samples each bin of the direct sum with the positive exponent is
the complex conjugate of the bin of the transform the specification defines. -/
theorem dftPos_conj (x : List ℂ) (hreal : ∀ z ∈ x, z.im = 0) (k : Nat) (hk : k < x.length) :
    (dftPos x).getD k 0 = (starRingEnd ℂ) ((dft x).getD k 0) := by
  rw [dftPos_getD x k hk, dft_getD x k hk, map_sum]
  apply Finset.sum_congr rfl
  intro n _
  rw [map_mul, getD_real x hreal n, ← Complex.exp_conj]
  congr 2
  simp only [map_div₀, map_mul, map_neg, Complex.conj_I, Complex.conj_ofReal, map_natCast,
    map_ofNat]
  ring

theorem magnitude_conj (z : ℂ) : magnitude ((starRingEnd ℂ) z) = magnitude z := by
  simp [magnitude]

/-- C17: for an input of length `N ≥ 2` the two subsequences `fourier` recurses
on have lengths `ceil(N/2)` and `floor(N/2)`, both at least 1 and less than
`N`; both recursive calls return and `fourier` returns the combine loop on
their results, every index the loop reads or writes being in bounds; `fourier`
returns on every non-empty input, and on the empty input the recursion never
reaches the base case, whatever the depth allowed. -/
theorem fourier_recursion (f : List ℂ) (hN : 2 ≤ f.length) :
    (evens f).length = (f.length + 1) / 2 ∧ (odds f).length = f.length / 2 ∧
    1 ≤ (evens f).length ∧ 1 ≤ (odds f).length ∧
    (evens f).length < f.length ∧ (odds f).length < f.length ∧
    (∃ e o, fourier (evens f) = some e ∧ fourier (odds f) = some o ∧
      fourier f = some (combine twiddle f.length e o) ∧
      ∀ i, i < f.length / 2 →
        i < e.length ∧ i < o.length ∧ i < f.length ∧ i + f.length / 2 < f.length) ∧
    (∀ g : List ℂ, g ≠ [] → ∃ r, fourier g = some r) ∧
    (∀ fuel, fourierFuel twiddle fuel ([] : List ℂ) = none) ∧
    fourier [] = none := by
  have hel : (evens f).length = (f.length + 1) / 2 := evens_length f
  have hol : (odds f).length = f.length / 2 := odds_length f
  obtain ⟨e, o, he, ho, hee, hoo, hf⟩ := fourier_unfold f hN
  refine ⟨hel, hol, by omega, by omega, by omega, by omega,
    ⟨e, o, he, ho, hf, fun i hi => ⟨by omega, by omega, by omega, by omega⟩⟩,
    fun g hg => ?_, fourierFuel_nil twiddle, rfl⟩
  obtain ⟨r, hr, _⟩ := fourier_returns g hg
  exact ⟨r, hr⟩

/-- Witness of C17: an input of three samples. -/
theorem fourier_recursion_witness :
    (evens ([1, 2, 3] : List ℂ)).length = 2 ∧ (odds ([1, 2, 3] : List ℂ)).length = 1 ∧
    ∃ e o, fourier (evens [1, 2, 3]) = some e ∧ fourier (odds [1, 2, 3]) = some o ∧
      fourier [1, 2, 3] = some (combine twiddle 3 e o) := by
  obtain ⟨h1, h2, _, _, _, _, ⟨e, o, he, ho, hf, _⟩, _⟩ :=
    fourier_recursion [1, 2, 3] (by simp)
  exact ⟨h1, h2, e, o, he, ho, hf⟩

/-- C18: for every sequence `x` of complex samples whose length `N` is a power
of two, `fourier x` returns the direct sums with the positive exponent,
entry `k` being the sum over `n` of `x[n] * e^(+2πi·k·n/N)`; when every sample
is real, each entry is the complex conjugate of the corresponding bin of the
transform with the negative exponent and has the same magnitude. -/
theorem fourier_conjugate_of_forward (x : List ℂ) (m : ℕ) (hx : x.length = 2 ^ m) :
    fourier x = some (dftPos x) ∧
    (dftPos x = (List.range x.length).map fun k : Nat =>
      ∑ n in Finset.range x.length,
        x.getD n 0 * Complex.exp (2 * Real.pi * Complex.I * k * n / x.length)) ∧
    ((∀ z ∈ x, z.im = 0) → ∀ k, k < x.length →
      (dftPos x).getD k 0 = (starRingEnd ℂ) ((dft x).getD k 0) ∧
      magnitude ((dftPos x).getD k 0) = magnitude ((dft x).getD k 0)) := by
  refine ⟨fourier_pow_two x m hx, rfl, fun hreal k hk => ?_⟩
  have hc := dftPos_conj x hreal k hk
  exact ⟨hc, by rw [hc, magnitude_conj]⟩

/-- Witness of C18: four real samples. -/
theorem fourier_conjugate_of_forward_witness :
    fourier [1, 2, 3, 4] = some (dftPos [1, 2, 3, 4]) ∧
    ∀ k, k < 4 →
      (dftPos [1, 2, 3, 4]).getD k 0 = (starRingEnd ℂ) ((dft [1, 2, 3, 4]).getD k 0) ∧
      magnitude ((dftPos [1, 2, 3, 4]).getD k 0) = magnitude ((dft [1, 2, 3, 4]).getD k 0) := by
  obtain ⟨h1, _, h3⟩ := fourier_conjugate_of_forward [1, 2, 3, 4] 2 rfl
  exact ⟨h1, h3 (by simp)⟩

theorem read_bytes_not_good (junk : Sample) (k : Nat) (d : List Sample) :
    read_bytes junk k ⟨d, false⟩ = (⟨d, false⟩, []) := by
  cases k <;> simp [read_bytes]

theorem read_bytes_full (junk : Sample) :
    ∀ (k : Nat) (data : List Sample), k ≤ data.length →
      read_bytes junk k ⟨data, true⟩ = (⟨data.drop k, true⟩, data.take k) := by
  intro k
  induction k with
  | zero => intro data _; simp [read_bytes]
  | succ k ih =>
    intro data h
    cases data with
    | nil => simp at h
    | cons b rest =>
      have hk : k ≤ rest.length := by simpa using h
      simp [read_bytes, IStream.read, ih rest hk]

theorem read_bytes_short (junk : Sample) :
    ∀ (k : Nat) (data : List Sample), data.length < k →
      read_bytes junk k ⟨data, true⟩ = (⟨[], false⟩, data ++ [junk]) := by
  intro k
  induction k with
  | zero => intro data h; exact absurd h (Nat.not_lt_zero _)
  | succ k ih =>
    intro data h
    cases data with
    | nil => simp [read_bytes, IStream.read, read_bytes_not_good]
    | cons b rest =>
      have hk : rest.length < k := by simpa using h
      simp [read_bytes, IStream.read, ih rest hk]

theorem packets_read_loop_not_good (junk : Sample) (fuel : Nat) (d : List Sample) :
    packets_read_loop junk fuel ⟨d, false⟩ = [] := by
  cases fuel <;> simp [packets_read_loop]

theorem packets_expected_short (junk : Sample) (data : List Sample)
    (h : data.length < packet_size) : packets_expected junk data = [data ++ [junk]] := by
  have hq : data.length / packet_size = 0 := Nat.div_eq_of_lt h
  simp [packets_expected, hq]

theorem packets_expected_full (junk : Sample) (data : List Sample)
    (h : packet_size ≤ data.length) :
    packets_expected junk data
      = data.take packet_size :: packets_expected junk (data.drop packet_size) := by
  unfold packets_expected
  simp only [packet_size] at h ⊢
  have hq : data.length / 160 = (data.length - 160) / 160 + 1 := by omega
  have hstep : ∀ i : Nat, List.drop (160 * i) (List.drop 160 data)
      = List.drop (160 * (i + 1)) data := by
    intro i
    rw [List.drop_drop]
    congr 1
    omega
  rw [List.length_drop, hq, List.range_succ_eq_map, List.map_cons, List.map_map,
    List.cons_append]
  simp only [Nat.mul_zero, List.drop_zero, hstep]
  rfl

theorem packets_read_loop_eq (junk : Sample) :
    ∀ (fuel : Nat) (data : List Sample), data.length / packet_size + 1 ≤ fuel →
      packets_read_loop junk fuel ⟨data, true⟩ = packets_expected junk data := by
  intro fuel
  induction fuel with
  | zero => intro data h; exact absurd h (Nat.not_succ_le_zero _)
  | succ fuel ih =>
    intro data h
    have hps : packet_size = 160 := rfl
    by_cases hfull : packet_size ≤ data.length
    · have hdrop : (data.drop packet_size).length / packet_size + 1 ≤ fuel := by
        rw [List.length_drop]
        rw [hps] at h hfull ⊢
        omega
      simp only [packets_read_loop, if_true, read_file_init, read_file_init_stream,
        read_bytes_full junk packet_size data hfull]
      rw [packets_expected_full junk data hfull, ih (data.drop packet_size) hdrop]
    · have hshort : data.length < packet_size := by omega
      simp only [packets_read_loop, if_true, read_file_init, read_file_init_stream,
        read_bytes_short junk packet_size data hshort, packets_read_loop_not_good]
      rw [packets_expected_short junk data hshort]

theorem packets_read_eq (junk : Sample) (data : List Sample) :
    packets_read junk ⟨data, true⟩ = packets_expected junk data := by
  unfold packets_read
  apply packets_read_loop_eq
  have h : data.length / packet_size ≤ data.length := Nat.div_le_self _ _
  show data.length / packet_size + 1 ≤ data.length + 2
  exact Nat.succ_le_succ (Nat.le_succ_of_le h)

theorem packets_expected_flatten (junk : Sample) :
    ∀ (n : Nat) (data : List Sample), data.length = n →
      (packets_expected junk data).flatten = data ++ [junk] := by
  intro n
  induction n using Nat.strong_induction_on with
  | _ n ih =>
    intro data hlen
    have hps : packet_size = 160 := rfl
    by_cases hfull : packet_size ≤ data.length
    · have hlt : (data.drop packet_size).length < n := by
        rw [List.length_drop]
        rw [hps] at hfull ⊢
        omega
      rw [packets_expected_full junk data hfull, List.flatten_cons,
        ih (data.drop packet_size).length hlt _ rfl,
        ← List.append_assoc, List.take_append_drop]
    · rw [packets_expected_short junk data (by omega)]
      simp

theorem zipWith_emitted_flatten_length :
    ∀ (ps : List (List Sample)) (ds : List Bool), ps.length = ds.length →
      (List.zipWith emitted ps ds).flatten.length = ps.flatten.length := by
  intro ps
  induction ps with
  | nil => intro ds _; simp
  | cons p ps ih =>
    intro ds hlen
    cases ds with
    | nil => simp at hlen
    | cons d ds =>
      simp only [List.zipWith_cons_cons, List.flatten_cons, List.length_append, emitted_length]
      rw [ih ds (by simpa using hlen)]

theorem packets_expected_getD (junk : Sample) (data : List Sample) (i : Nat)
    (hi : i < data.length / packet_size) :
    (packets_expected junk data).getD i []
      = (data.drop (packet_size * i)).take packet_size := by
  unfold packets_expected
  rw [List.getD_eq_getElem?_getD, List.getElem?_append_left (by simpa using hi),
    List.getElem?_map, List.getElem?_range hi]
  rfl

/-- C20: for every opened stream of `L` bytes, with `packet_size` = 160, the
main loop reads `L / 160 + 1` packets: packet `i` for `i < L / 160` is the 160
bytes of the file from offset `160 * i`, and the last packet is the
`L mod 160` bytes that remain followed by the one sample pushed after the read
that met the end of the file; with a classifier that returns on non-empty
packets the run returns, the log has `L / 160 + 1` characters and the data
output `L + 1` bytes. -/
theorem process_reads_one_more (classify : List Sample → Option Bool) (junk : Sample)
    (data : List Sample) (htotal : ∀ p, p ≠ [] → ∃ c, classify p = some c) :
    packets_read junk ⟨data, true⟩ = packets_expected junk data ∧
    (packets_read junk ⟨data, true⟩).length = data.length / packet_size + 1 ∧
    (∀ i, i < data.length / packet_size →
      (packets_read junk ⟨data, true⟩).getD i []
          = (data.drop (packet_size * i)).take packet_size ∧
        ((packets_read junk ⟨data, true⟩).getD i []).length = packet_size) ∧
    (packets_read junk ⟨data, true⟩).getLast?
      = some (data.drop (packet_size * (data.length / packet_size)) ++ [junk]) ∧
    (data.drop (packet_size * (data.length / packet_size)) ++ [junk]).length
      = data.length % packet_size + 1 ∧
    ∃ out, process classify junk ⟨data, true⟩ = some out ∧
      out.ofstxt.length = data.length / packet_size + 1 ∧
      out.ofs.length = data.length + 1 := by
  have hps : packet_size = 160 := rfl
  have heq := packets_read_eq junk data
  have hlen : (packets_expected junk data).length = data.length / packet_size + 1 := by
    simp [packets_expected]
  refine ⟨heq, by rw [heq, hlen], fun i hi => ?_, ?_, ?_, ?_⟩
  · rw [heq, packets_expected_getD junk data i hi]
    refine ⟨rfl, ?_⟩
    rw [List.length_take, List.length_drop]
    rw [hps] at hi ⊢
    omega
  · rw [heq]
    simp [packets_expected]
  · rw [List.length_append, List.length_drop, hps]
    simp only [List.length_singleton]
    omega
  · have hne := packets_read_ne_nil junk ⟨data, true⟩
    obtain ⟨cs, hcs⟩ := flags_exist classify htotal _ hne
    have hcl : (packets_read junk ⟨data, true⟩).length = cs.length := by
      have := congrArg List.length hcs
      simpa using this
    refine ⟨_, (process_eq_drive classify junk _).trans (drive_eq classify _ cs hne hcs), ?_, ?_⟩
    · simp only [List.length_map, smooth_length, ← hcl, heq, hlen]
    · show (List.zipWith emitted _ (smooth cs)).flatten.length = _
      rw [zipWith_emitted_flatten_length _ _ (by rw [smooth_length, hcl]), heq,
        packets_expected_flatten junk data.length data rfl]
      simp

/-- Witness of C20: a file of three bytes and the classifier of the source. -/
theorem process_reads_one_more_witness :
    packets_read 9 ⟨[1, 2, 3], true⟩ = [[1, 2, 3, 9]] ∧
    ∃ out, process classifier 9 ⟨[1, 2, 3], true⟩ = some out ∧
      out.ofstxt.length = 1 ∧ out.ofs.length = 4 := by
  obtain ⟨h1, _, _, _, _, out, h2, h3, h4⟩ :=
    process_reads_one_more classifier 9 [1, 2, 3] classifier_returns
  exact ⟨h1.trans (by decide), out, h2, h3, h4⟩

/-- C12, the code at an input of 200 bytes, the first 160 being `a` and the
last 40 being `b`, with a classifier whose flag is false on a packet of 160
samples and true on any other: the run returns, the log is `11`, and the data
output is the 200 bytes of the file followed by one more byte, the sample
pushed after the read that met the end of the file; the second packet emitted
has 41 bytes. -/
theorem process_two_hundred_bytes (a : { l : List Sample // l.length = 160 })
    (b : { l : List Sample // l.length = 40 }) (junk : Sample) :
    (a.val ++ b.val).length = 200 ∧
    packets_read junk ⟨a.val ++ b.val, true⟩ = [a.val, b.val ++ [junk]] ∧
    (b.val ++ [junk]).length = 41 ∧
    process (fun p => some (decide (p.length ≠ 160))) junk ⟨a.val ++ b.val, true⟩
      = some ⟨a.val ++ b.val ++ [junk], ['1', '1']⟩ := by
  obtain ⟨a, ha⟩ := a
  obtain ⟨b, hb⟩ := b
  have hps : packet_size = 160 := rfl
  have hfull : packet_size ≤ (a ++ b).length := by
    rw [List.length_append, ha, hb, hps]; decide
  have hshort : b.length < packet_size := by rw [hb, hps]; decide
  have hpk : packets_read junk ⟨a ++ b, true⟩ = [a, b ++ [junk]] := by
    rw [packets_read_eq, packets_expected_full _ _ hfull, List.take_left' (ha.trans hps.symm),
      List.drop_left' (ha.trans hps.symm), packets_expected_short _ _ hshort]
  have hne : ∀ p ∈ [a, b ++ [junk]], p ≠ [] := by
    intro p hp
    simp only [List.mem_cons, List.mem_singleton, List.not_mem_nil, or_false] at hp
    rcases hp with rfl | rfl
    · intro h0; rw [h0] at ha; simp at ha
    · simp
  have hflags : [a, b ++ [junk]].map (fun p => some (decide (p.length ≠ 160)))
      = [false, true].map some := by
    simp [ha, hb]
  refine ⟨by rw [List.length_append, ha, hb], hpk, by rw [List.length_append, hb]; rfl, ?_⟩
  rw [process_eq_drive, hpk, drive_eq _ [a, b ++ [junk]] [false, true] hne hflags]
  have hs : smooth [false, true] = [true, true] := by decide
  rw [hs]
  simp [emitted, log_char]

/-! ## The advance step and the passes of the main loop -/

/-- The shifting loop of `shift_packets` and `shift_flags` after `t`
iterations, index by index. -/
theorem shift_loop_get {α : Type} (d : α) (l : List α) :
    ∀ t, t + 1 ≤ l.length →
      ((List.range t).foldl (fun pk i => pk.set i (pk.getD (i + 1) d)) l).length = l.length ∧
      ∀ k, ((List.range t).foldl (fun pk i => pk.set i (pk.getD (i + 1) d)) l)[k]?
        = if k < t then l[k + 1]? else l[k]? := by
  intro t
  induction t with
  | zero => intro _; simp
  | succ t ih =>
    intro ht
    obtain ⟨hlen, hget⟩ := ih (by omega)
    rw [List.range_succ, List.foldl_append]
    simp only [List.foldl_cons, List.foldl_nil, List.length_set]
    refine ⟨hlen, fun k => ?_⟩
    rw [List.getElem?_set, hlen, List.getD_eq_getElem?_getD, hget (t + 1), hget k]
    have h1 : ¬ t + 1 < t := by omega
    have h2 : t < l.length := by omega
    have h3 : t + 1 < l.length := by omega
    rw [if_neg h1, List.getElem?_eq_getElem h3]
    by_cases hk : t = k
    · subst hk
      simp [h2]
    · rw [if_neg hk]
      by_cases hkt : k < t
      · have : k < t + 1 := by omega
        simp [hkt, this]
      · have : ¬ k < t + 1 := by omega
        simp [hkt, this]

theorem shift_list {α : Type} (d : α) (l : List α) (hl : l ≠ []) :
    ((List.range (l.length - 1)).foldl (fun pk i => pk.set i (pk.getD (i + 1) d)) l).set
        (((List.range (l.length - 1)).foldl
          (fun pk i => pk.set i (pk.getD (i + 1) d)) l).length - 1) d
      = l.tail ++ [d] := by
  have hpos : 0 < l.length := List.length_pos.mpr hl
  obtain ⟨hlen, hget⟩ := shift_loop_get d l (l.length - 1) (by omega)
  apply List.ext_getElem?
  intro k
  rw [List.getElem?_set, hlen, hget k, List.getElem?_append, List.length_tail,
    List.getElem?_tail]
  by_cases hk : l.length - 1 = k
  · have h1 : l.length - 1 < l.length := by omega
    have h2 : ¬ k < l.length - 1 := by omega
    subst hk
    simp [h1]
  · rw [if_neg hk]
    by_cases hlt : k < l.length - 1
    · simp [hlt]
    · have h3 : l.length ≤ k := by omega
      have h4 : 1 ≤ k - (l.length - 1) := by omega
      rw [if_neg hlt, if_neg hlt, List.getElem?_eq_none h3]
      exact (List.getElem?_eq_none (by simpa using h4)).symm

theorem advance_eq (v : Vad) (hp : v.packet ≠ []) (hf : v.has_voice ≠ []) :
    shift_flags (shift_packets v) = ⟨v.packet.tail ++ [[]], v.has_voice.tail ++ [false]⟩ := by
  unfold shift_flags shift_packets
  simp only [shift_list [] v.packet hp, shift_list false v.has_voice hf]

theorem loop_trace_inv (classify : List Sample → Option Bool) (junk : Sample) :
    ∀ (fuel : Nat) (ifs : IStream) (q : List Sample) (a b : Bool) (out : Out),
      ∀ t ∈ loop_trace classify junk fuel ifs ⟨[q, []], [a, b, false]⟩ out,
        ∃ (q1 : List Sample) (a1 b1 : Bool), t.1.good = true ∧
          t.2.1 = ⟨[q1, []], [a1, b1, false]⟩ ∧
          t.2.2 = ⟨[q1, (read_bytes junk packet_size t.1).2], [a1, b1, false]⟩ ∧
          t.2.2 = (read_file junk t.1 t.2.1).2 ∧
          (read_bytes junk packet_size t.1).2 ≠ [] := by
  intro fuel
  induction fuel with
  | zero => intro ifs q a b out t ht; simp [loop_trace] at ht
  | succ fuel ih =>
    intro ifs q a b out t ht
    by_cases hg : ifs.good = true
    · have hread : read_file junk ifs ⟨[q, []], [a, b, false]⟩
          = ((read_bytes junk packet_size ifs).1,
              ⟨[q, (read_bytes junk packet_size ifs).2], [a, b, false]⟩) := by
        rw [read_file, read_loop_two]; simp
      simp only [loop_trace, hg, if_true, List.mem_cons, hread] at ht
      rcases ht with rfl | ht
      · refine ⟨q, a, b, hg, rfl, rfl, by rw [hread], ?_⟩
        rw [packet_size_succ]
        exact read_bytes_ne_nil junk 159 ifs hg
      · cases hcl : classify (read_bytes junk packet_size ifs).2 with
        | none =>
          simp [iteration, voice_detection, hcl] at ht
        | some c =>
          rw [iteration_two classify q _ a b false c out hcl] at ht
          exact ih _ _ _ _ _ t ht
    · simp [loop_trace, hg] at ht

/-- With a classifier that returns on non-empty packets, the passes of the
main loop are as many as the packets read, and the newest packet of the window
each pass calls `voice_detection` on is the packet read in that pass. -/
theorem loop_trace_packets (classify : List Sample → Option Bool) (junk : Sample)
    (htotal : ∀ p, p ≠ [] → ∃ c, classify p = some c) :
    ∀ (fuel : Nat) (ifs : IStream) (q : List Sample) (a b : Bool) (out : Out),
      (loop_trace classify junk fuel ifs ⟨[q, []], [a, b, false]⟩ out).map
          (fun t => t.2.2.packet.getD look_ahead [])
        = packets_read_loop junk fuel ifs := by
  intro fuel
  induction fuel with
  | zero => intro ifs q a b out; rfl
  | succ fuel ih =>
    intro ifs q a b out
    by_cases hg : ifs.good = true
    · have hread : read_file junk ifs ⟨[q, []], [a, b, false]⟩
          = ((read_bytes junk packet_size ifs).1,
              ⟨[q, (read_bytes junk packet_size ifs).2], [a, b, false]⟩) := by
        rw [read_file, read_loop_two]; simp
      have hne : (read_bytes junk packet_size ifs).2 ≠ [] := by
        rw [packet_size_succ]
        exact read_bytes_ne_nil junk 159 ifs hg
      obtain ⟨c, hc⟩ := htotal _ hne
      simp only [loop_trace, packets_read_loop, hg, if_true, hread, List.map_cons,
        read_file_init, read_file_init_stream,
        iteration_two classify q _ a b false c out hc, ih]
      rfl
    · simp [loop_trace, packets_read_loop, hg]

/-- C15: in every run, whatever the stream (also an empty file) and the
classifier, each pass of the main loop calls `voice_detection` on a window
whose newest packet holds at least one sample, so `fourier` is applied to a
non-empty sequence and returns a non-empty spectrum for `max_magnitude`; with
a classifier that returns on non-empty packets there is one such pass for each
packet read. -/
theorem detection_on_nonempty (classify : List Sample → Option Bool) (junk : Sample)
    (ifs : IStream) (t : IStream × Vad × Vad) (ht : t ∈ process_trace classify junk ifs) :
    (∃ p, t.2.2.packet.getLast? = some p ∧ p ≠ [] ∧ 1 ≤ p.length ∧
      ∃ f, fourier (p.map fun s => ((s : ℤ) : ℂ)) = some f ∧ f ≠ []) ∧
    ((∀ p, p ≠ [] → ∃ c, classify p = some c) →
      (process_trace classify junk ifs).map (fun t => t.2.2.packet.getD look_ahead [])
        = packets_read junk ifs) := by
  have hinit : Vad.init = ⟨[[], []], [false, false, false]⟩ := rfl
  refine ⟨?_, fun htotal => ?_⟩
  · unfold process_trace at ht
    rw [hinit] at ht
    obtain ⟨q1, a1, b1, _, _, h2, _, hne⟩ :=
      loop_trace_inv classify junk _ ifs [] false false _ t ht
    refine ⟨(read_bytes junk packet_size t.1).2, by rw [h2]; rfl, hne,
      List.length_pos.mpr hne, ?_⟩
    obtain ⟨f, hf, hlen⟩ := fourier_returns ((read_bytes junk packet_size t.1).2.map
      fun s => ((s : ℤ) : ℂ)) (by simpa using hne)
    refine ⟨f, hf, ?_⟩
    intro h0
    rw [h0, List.length_map] at hlen
    exact hne (List.length_eq_zero.mp hlen.symm)
  · unfold process_trace packets_read
    rw [hinit]
    exact loop_trace_packets classify junk htotal _ ifs [] false false _

/-- Witness of C15: the only pass of the run on a file of one byte. -/
theorem detection_on_nonempty_witness :
    ∃ p, (⟨[[], [1, 0]], [false, false, false]⟩ : Vad).packet.getLast? = some p ∧ p ≠ [] ∧
      1 ≤ p.length ∧ ∃ f, fourier (p.map fun s => ((s : ℤ) : ℂ)) = some f ∧ f ≠ [] :=
  (detection_on_nonempty (fun _ => some true) 0 ⟨[1], true⟩
    (⟨[1], true⟩, Vad.init, ⟨[[], [1, 0]], [false, false, false]⟩) (by decide)).1

/-- C16: for a window with at least one packet slot and one flag,
`shift_packets` followed by `shift_flags` gives the packets without the first
followed by an empty packet and the flags without the first followed by
`false`, so both lengths stay as they are; and at the start of every pass of
the main loop the window has `look_ahead + 1` packet slots and
`look_back + 1 + look_ahead` flags and its newest slot is empty, so that after
`read_file` the newest slot holds just the packet `read_file` builds from an
empty slot. -/
theorem advance_spec (v : Vad) (hp : v.packet ≠ []) (hf : v.has_voice ≠ []) :
    shift_flags (shift_packets v) = ⟨v.packet.tail ++ [[]], v.has_voice.tail ++ [false]⟩ ∧
    (shift_flags (shift_packets v)).packet.length = v.packet.length ∧
    (shift_flags (shift_packets v)).has_voice.length = v.has_voice.length ∧
    ∀ (classify : List Sample → Option Bool) (junk : Sample) (ifs : IStream),
      ∀ t ∈ process_trace classify junk ifs,
        t.2.1.packet.length = look_ahead + 1 ∧
        t.2.1.has_voice.length = look_back + 1 + look_ahead ∧
        t.2.1.packet.getLast? = some [] ∧
        t.2.2 = (read_file junk t.1 t.2.1).2 ∧
        t.2.2.packet.getLast?
          = some ((read_file junk t.1 Vad.init).2.packet.getD look_ahead []) := by
  have hadv := advance_eq v hp hf
  have hp1 : 0 < v.packet.length := List.length_pos.mpr hp
  have hf1 : 0 < v.has_voice.length := List.length_pos.mpr hf
  refine ⟨hadv, ?_, ?_, ?_⟩
  · rw [hadv]
    simp only [List.length_append, List.length_tail, List.length_singleton]
    omega
  · rw [hadv]
    simp only [List.length_append, List.length_tail, List.length_singleton]
    omega
  · intro classify junk ifs t ht
    have hinit : Vad.init = ⟨[[], []], [false, false, false]⟩ := rfl
    unfold process_trace at ht
    rw [hinit] at ht
    obtain ⟨q1, a1, b1, _, h1, h2, h3, _⟩ :=
      loop_trace_inv classify junk _ ifs [] false false _ t ht
    refine ⟨by rw [h1]; rfl, by rw [h1]; rfl, by rw [h1]; rfl, h3, ?_⟩
    rw [read_file_init, h2]
    rfl

/-- Witness of C16: a window of two packets and three flags. -/
theorem advance_spec_witness :
    shift_flags (shift_packets ⟨[[1], [2]], [true, false, true]⟩)
      = ⟨[[2], []], [false, true, false]⟩ := by
  have h := (advance_spec ⟨[[1], [2]], [true, false, true]⟩ (by simp) (by simp)).1
  exact h.trans (by decide)

/-! ## Doubles: the order, the magnitude and the running maximum -/

theorem dbl_gt_or_le (a b : Dbl) (ha : a ≠ .nan) (hb : b ≠ .nan) :
    Dbl.gt a b = true ∨ Dbl.le a b = true := by
  cases a <;> cases b <;> simp_all [Dbl.gt, Dbl.lt, Dbl.le]
  exact lt_or_le _ _

theorem dbl_le_of_gt (a b : Dbl) (h : Dbl.gt a b = true) : Dbl.le b a = true := by
  cases a <;> cases b <;> simp_all [Dbl.gt, Dbl.lt, Dbl.le]
  exact le_of_lt h

theorem dbl_ne_nan_of_gt (a b : Dbl) (h : Dbl.gt a b = true) : a ≠ .nan := by
  cases a <;> cases b <;> simp_all [Dbl.gt, Dbl.lt]

theorem dbl_le_refl (a : Dbl) (ha : a ≠ .nan) : Dbl.le a a = true := by
  cases a <;> simp_all [Dbl.le]

theorem dbl_le_trans (a b c : Dbl) (h1 : Dbl.le a b = true) (h2 : Dbl.le b c = true) :
    Dbl.le a c = true := by
  cases a <;> cases b <;> cases c <;> simp_all [Dbl.le]
  exact le_trans h1 h2

theorem magnitude_double_sign (A : Fpu) (z : CDbl) :
    magnitude_double A z = .nan ∨ Dbl.le (.fin 0) (magnitude_double A z) = true := by
  unfold magnitude_double
  cases addD A (powD A z.re) (powD A z.im) with
  | nan => exact Or.inl rfl
  | ninf => exact Or.inl rfl
  | pinf => exact Or.inr rfl
  | fin q =>
    rcases A.sqrt_sign q with h | h | ⟨y, hy, h⟩
    · exact Or.inl h
    · exact Or.inr (by simp [sqrtD, h, Dbl.le])
    · exact Or.inr (by simp [sqrtD, h, Dbl.le, hy])

theorem magnitude_double_zero (A : Fpu) : magnitude_double A ⟨.fin 0, .fin 0⟩ = .fin 0 := by
  simp [magnitude_double, powD, addD, sqrtD, A.pow2_zero, A.add_zero, A.sqrt_zero]

/-- The running maximum of `max_magnitude` on doubles, from any start value:
it is the start value or the magnitude of a bin. -/
theorem running_max_double_mem (A : Fpu) (m : List CDbl) :
    ∀ init : Dbl,
      m.foldl (fun max z =>
          if Dbl.gt (magnitude_double A z) max then magnitude_double A z else max) init = init ∨
      ∃ z ∈ m, m.foldl (fun max z =>
          if Dbl.gt (magnitude_double A z) max then magnitude_double A z else max) init
        = magnitude_double A z := by
  induction m with
  | nil => intro init; exact Or.inl rfl
  | cons a m ih =>
    intro init
    simp only [List.foldl_cons, List.mem_cons]
    by_cases hgt : Dbl.gt (magnitude_double A a) init = true
    · simp only [hgt, if_true]
      rcases ih (magnitude_double A a) with h | ⟨z, hz, h⟩
      · exact Or.inr ⟨a, Or.inl rfl, h⟩
      · exact Or.inr ⟨z, Or.inr hz, h⟩
    · simp only [hgt, Bool.false_eq_true, if_false]
      rcases ih init with h | ⟨z, hz, h⟩
      · exact Or.inl h
      · exact Or.inr ⟨z, Or.inr hz, h⟩

/-- When no magnitude and not the start value is not-a-number, the running
maximum is at least the start value and every magnitude. -/
theorem running_max_double_le (A : Fpu) (m : List CDbl) :
    ∀ init : Dbl, init ≠ .nan → (∀ z ∈ m, magnitude_double A z ≠ .nan) →
      Dbl.le init (m.foldl (fun max z =>
          if Dbl.gt (magnitude_double A z) max then magnitude_double A z else max) init) = true ∧
      ∀ z ∈ m, Dbl.le (magnitude_double A z) (m.foldl (fun max z =>
          if Dbl.gt (magnitude_double A z) max then magnitude_double A z else max) init)
        = true := by
  induction m with
  | nil => intro init hinit _; exact ⟨dbl_le_refl init hinit, by simp⟩
  | cons a m ih =>
    intro init hinit hnan
    have ha : magnitude_double A a ≠ .nan := hnan a (List.mem_cons_self _ _)
    have hm : ∀ z ∈ m, magnitude_double A z ≠ .nan :=
      fun z hz => hnan z (List.mem_cons_of_mem _ hz)
    simp only [List.foldl_cons, List.mem_cons]
    by_cases hgt : Dbl.gt (magnitude_double A a) init = true
    · simp only [hgt, if_true]
      obtain ⟨h1, h2⟩ := ih (magnitude_double A a) ha hm
      refine ⟨dbl_le_trans _ _ _ (dbl_le_of_gt _ _ hgt) h1, ?_⟩
      rintro z (rfl | hz)
      · exact h1
      · exact h2 z hz
    · simp only [hgt, Bool.false_eq_true, if_false]
      obtain ⟨h1, h2⟩ := ih init hinit hm
      refine ⟨h1, ?_⟩
      rintro z (rfl | hz)
      · rcases dbl_gt_or_le _ _ ha hinit with h | h
        · exact absurd h hgt
        · exact dbl_le_trans _ _ _ h h1
      · exact h2 z hz

theorem fourier_double_returns (A : Fpu) (f : List CDbl) (hf : f ≠ []) :
    ∃ r, fourier_double A f = some r ∧ r.length = f.length := by
  have h1 : 1 ≤ f.length := List.length_pos.mpr hf
  exact @fourierFuel_length CDbl (Zero.mk ⟨.fin 0, .fin 0⟩) (Add.mk (caddD A))
    (Sub.mk (csubD A)) (Mul.mk (cmulD A)) (twiddle_double A) f.length f h1 (le_refl _)

theorem band_iff (M : Dbl) :
    (Dbl.gt M (.fin min_freq) && Dbl.lt M (.fin max_freq)) = true
      ↔ ∃ x, M = .fin x ∧ 200 < x ∧ x < 3400 := by
  cases M <;> simp [Dbl.gt, Dbl.lt, min_freq, max_freq]

theorem powD_fixed (q : ℚ) : powD Fpu.fixed (.fin q) = clamp (q * q) := by
  simp only [powD, Fpu.fixed]

theorem clamp_of_abs_le (q : ℚ) (h1 : q ≤ 2 ^ 1024) (h2 : -(2 ^ 1024) ≤ q) :
    clamp q = .fin q := by
  simp [clamp, not_lt.mpr h1, not_lt.mpr h2]

theorem magnitude_three_four_ne_nan : magnitude_double Fpu.fixed ⟨.fin 3, .fin 4⟩ ≠ .nan := by
  have h9 : clamp (3 * 3) = .fin 9 := by
    rw [clamp_of_abs_le] <;> norm_num
  have h16 : clamp (4 * 4) = .fin 16 := by
    rw [clamp_of_abs_le] <;> norm_num
  have h25 : clamp (9 + 16) = .fin 25 := by
    rw [clamp_of_abs_le] <;> norm_num
  have hadd : addD Fpu.fixed (.fin 9) (.fin 16) = clamp (9 + 16) := by
    simp only [addD, Fpu.fixed]
  have hsqrt : sqrtD Fpu.fixed (.fin 25) ≠ .nan := by
    simp only [sqrtD, Fpu.fixed]
    rw [if_neg (by norm_num)]
    intro h
    cases h
  unfold magnitude_double
  rw [powD_fixed, powD_fixed, h9, h16, hadd, h25]
  exact hsqrt

/-! ## Doubles: the statements on `max_magnitude` and `voice_detection` -/

/-- C9, as stated, fails: on the non-empty spectrum whose one bin has a
not-a-number real part every comparison `magnitude > max` is false and
`max_magnitude` returns -1, a negative number; and on the one bin
`(10 ^ 200, 0)` the square overflows and it returns infinity, not `10 ^ 200`. -/
theorem max_magnitude_double_nan :
    max_magnitude_double Fpu.fixed [⟨.nan, .fin 0⟩] = .fin (-1) ∧
    max_magnitude_double Fpu.fixed [⟨.fin (10 ^ 200), .fin 0⟩] = .pinf := by
  constructor
  · simp [max_magnitude_double, magnitude_double, powD, addD, sqrtD, Dbl.gt, Dbl.lt]
  · have hbig : (2 : ℚ) ^ 1024 < 10 ^ 200 * 10 ^ 200 := by norm_num
    have hpow : powD Fpu.fixed (.fin (10 ^ 200)) = .pinf := by
      rw [powD_fixed]
      unfold clamp
      rw [if_pos hbig]
    have hmag : magnitude_double Fpu.fixed ⟨.fin (10 ^ 200), .fin 0⟩ = .pinf := by
      have h0 : powD Fpu.fixed (.fin 0) = .fin 0 := Fpu.fixed.pow2_zero
      unfold magnitude_double
      rw [hpow, h0]
      rfl
    simp only [max_magnitude_double, List.foldl_cons, List.foldl_nil, hmag]
    rfl

/-- C9, amended: for every non-empty spectrum `m` in which no bin has a
not-a-number magnitude, `max_magnitude m` is the magnitude of some bin and is
at least the magnitude of every bin, the magnitude of a bin being the double
the code computes for `sqrt(pow(re, 2) + pow(im, 2))`; it is not negative, and
it is exactly 0 when every bin is zero. -/
theorem max_magnitude_double_spec (A : Fpu) (m : List CDbl) (hm : m ≠ [])
    (hnan : ∀ z ∈ m, magnitude_double A z ≠ .nan) :
    (∃ z ∈ m, max_magnitude_double A m = magnitude_double A z) ∧
    (∀ z ∈ m, Dbl.le (magnitude_double A z) (max_magnitude_double A m) = true) ∧
    Dbl.le (.fin 0) (max_magnitude_double A m) = true ∧
    ((∀ z ∈ m, z = ⟨.fin 0, .fin 0⟩) → max_magnitude_double A m = .fin 0) := by
  obtain ⟨_, hle⟩ := running_max_double_le A m (.fin (-1)) (by simp) hnan
  obtain ⟨a, ha⟩ := List.exists_mem_of_ne_nil m hm
  have hzero_a : Dbl.le (.fin 0) (magnitude_double A a) = true := by
    rcases magnitude_double_sign A a with h | h
    · exact absurd h (hnan a ha)
    · exact h
  have hnn : Dbl.le (.fin 0) (max_magnitude_double A m) = true :=
    dbl_le_trans _ _ _ hzero_a (hle a ha)
  have hbin : ∃ z ∈ m, max_magnitude_double A m = magnitude_double A z := by
    rcases running_max_double_mem A m (.fin (-1)) with h | h
    · have h1 : max_magnitude_double A m = .fin (-1) := h
      rw [h1] at hnn
      have hneg : Dbl.le (.fin 0) (.fin (-1)) = false := by norm_num [Dbl.le]
      rw [hneg] at hnn
      exact absurd hnn (by decide)
    · exact h
  refine ⟨hbin, hle, hnn, fun hz => ?_⟩
  obtain ⟨z, hzm, hz2⟩ := hbin
  rw [hz2, hz z hzm, magnitude_double_zero]

/-- Witness of C9, amended: a spectrum of the bins `(3, 4)` and `(0, 0)`. -/
theorem max_magnitude_double_spec_witness :
    (∃ z ∈ [(⟨.fin 3, .fin 4⟩ : CDbl), ⟨.fin 0, .fin 0⟩],
      max_magnitude_double Fpu.fixed [⟨.fin 3, .fin 4⟩, ⟨.fin 0, .fin 0⟩]
        = magnitude_double Fpu.fixed z) ∧
    (∀ z ∈ [(⟨.fin 3, .fin 4⟩ : CDbl), ⟨.fin 0, .fin 0⟩],
      Dbl.le (magnitude_double Fpu.fixed z)
        (max_magnitude_double Fpu.fixed [⟨.fin 3, .fin 4⟩, ⟨.fin 0, .fin 0⟩]) = true) ∧
    Dbl.le (.fin 0)
      (max_magnitude_double Fpu.fixed [⟨.fin 3, .fin 4⟩, ⟨.fin 0, .fin 0⟩]) = true := by
  obtain ⟨h1, h2, h3, _⟩ := max_magnitude_double_spec Fpu.fixed
    [⟨.fin 3, .fin 4⟩, ⟨.fin 0, .fin 0⟩] (by simp) (by
      intro z hz
      simp only [List.mem_cons, List.mem_singleton, List.not_mem_nil, or_false] at hz
      rcases hz with rfl | rfl
      · exact magnitude_three_four_ne_nan
      · rw [magnitude_double_zero]
        simp)
  exact ⟨h1, h2, h3⟩

/-- C10: for a window whose newest packet `p` is not empty, the transform of
the promoted samples returns a spectrum `f`, `voice_detection` returns, the
packet slots and the flags before the last are as they were, and the last flag
is true exactly when the double `M = max_magnitude f` the code computes is a
finite number with `200 < M < 3400`; a magnitude of exactly 200 or exactly
3400 gives false. -/
theorem voice_detection_spec (A : Fpu) (v : Vad) (p : List Sample)
    (hp : v.packet.getLast? = some p) (hne : p ≠ []) (hv : v.has_voice ≠ []) :
    ∃ f w, fourier_double A (p.map fun s : Sample => ⟨.fin ((s : ℤ) : ℚ), .fin 0⟩) = some f ∧
      f.length = p.length ∧
      voice_detection (classifier_double A) v = some w ∧
      w.packet = v.packet ∧
      w.has_voice.length = v.has_voice.length ∧
      (∀ i, i < v.has_voice.length - 1 → w.has_voice.getD i false = v.has_voice.getD i false) ∧
      (w.has_voice.getLast? = some true
        ↔ ∃ x, max_magnitude_double A f = .fin x ∧ 200 < x ∧ x < 3400) ∧
      (max_magnitude_double A f = .fin 200 → w.has_voice.getLast? = some false) ∧
      (max_magnitude_double A f = .fin 3400 → w.has_voice.getLast? = some false) := by
  obtain ⟨f, hf, hflen⟩ := fourier_double_returns A (p.map fun s : Sample => ⟨.fin ((s : ℤ) : ℚ), .fin 0⟩)
    (by simpa using hne)
  have hnewest : v.packet.getD (v.packet.length - 1) [] = p := by
    rw [List.getLast?_eq_getElem?] at hp
    rw [List.getD_eq_getElem?_getD, hp]
    rfl
  have hcl : classifier_double A p
      = some (Dbl.gt (max_magnitude_double A f) (.fin min_freq)
          && Dbl.lt (max_magnitude_double A f) (.fin max_freq)) := by
    simp only [classifier_double, hf]
  have hpos : v.has_voice.length - 1 < v.has_voice.length := by
    have := List.length_pos.mpr hv
    omega
  have hlast : ∀ b : Bool,
      (v.has_voice.set (v.has_voice.length - 1) b).getLast? = some b := by
    intro b
    rw [List.getLast?_eq_getElem?, List.length_set, List.getElem?_set]
    simp [hpos]
  refine ⟨f, ⟨v.packet, v.has_voice.set (v.has_voice.length - 1)
      (Dbl.gt (max_magnitude_double A f) (.fin min_freq)
        && Dbl.lt (max_magnitude_double A f) (.fin max_freq))⟩,
    hf, by rw [hflen, List.length_map], ?_, rfl, by simp, ?_, ?_, ?_, ?_⟩
  · simp only [voice_detection, hnewest, hcl]
  · intro i hi
    have hne1 : v.has_voice.length - 1 ≠ i := by omega
    simp only [List.getD_eq_getElem?_getD]
    rw [List.getElem?_set_ne hne1]
  · simp only [hlast, Option.some.injEq]
    exact band_iff _
  · intro h
    simp only [hlast, Option.some.injEq, h]
    simp [Dbl.gt, Dbl.lt, min_freq]
  · intro h
    simp only [hlast, Option.some.injEq, h]
    simp [Dbl.gt, Dbl.lt, max_freq]

/-- Witness of C10: a window whose newest packet holds one sample. -/
theorem voice_detection_spec_witness :
    ∃ f w, fourier_double Fpu.fixed (([1] : List Sample).map fun s : Sample => ⟨.fin ((s : ℤ) : ℚ), .fin 0⟩)
        = some f ∧
      f.length = 1 ∧
      voice_detection (classifier_double Fpu.fixed) ⟨[[], [1]], [false, false, false]⟩
        = some w ∧
      w.packet = [[], [1]] ∧
      (w.has_voice.getLast? = some true
        ↔ ∃ x, max_magnitude_double Fpu.fixed f = .fin x ∧ 200 < x ∧ x < 3400) := by
  obtain ⟨f, w, h1, h2, h3, h4, _, _, h7, _⟩ :=
    voice_detection_spec Fpu.fixed ⟨[[], [1]], [false, false, false]⟩ [1] rfl (by simp)
      (by simp)
  exact ⟨f, w, h1, h2, h3, h4, h7⟩

/-- C14, as stated, fails: on the empty spectrum `max_magnitude` does not fail
but returns the number -1, the start value of its running maximum. -/
theorem max_magnitude_double_nil : max_magnitude_double Fpu.fixed [] = .fin (-1) := rfl

/-- C14, amended: `max_magnitude` has no failure: on the empty spectrum it
returns -1, the start value of its running maximum, whatever the arithmetic,
and on every spectrum it returns a value, which is -1 or the magnitude of one
of the bins. -/
theorem max_magnitude_double_returns (A : Fpu) :
    max_magnitude_double A [] = .fin (-1) ∧
    ∀ m : List CDbl, max_magnitude_double A m = .fin (-1) ∨
      ∃ z ∈ m, max_magnitude_double A m = magnitude_double A z :=
  ⟨rfl, fun m => running_max_double_mem A m (.fin (-1))⟩

end VAD
